import Mathlib

/-!
# DoubleHeap: a fixed-capacity binary heap and the two-heap median structure

Shallow embedding of `heap.c` and `double_heap.c`.

Modelling conventions.

* A C `int` is a Lean `Int`.  No arithmetic is ever done on keys (they are only
  compared and copied); index arithmetic (`2*i + 1`, `(i - 1)/2`, `last_index + 1`)
  is done without wrap-around.  C division and remainder truncate towards zero,
  hence `Int.tdiv` and `Int.tmod`.
* The buffer `int *data` is a map from offsets to cells, `Int → Int`.  A write
  `data[i] = v` is `write data i v`, a read `data[i]` is `data i`.  The cells of a
  freshly allocated block have no defined content: the constructors take that
  content as an argument.
* A function that receives a `heap *` returns the heap it leaves behind, next to
  its C return value when it has one.
* Messages printed on `stderr` are not part of the state.
* The `compare_function` pointer of a heap is always set from its type by
  `construct_heap`; it is modelled as a function of the `heap_type` field.
* The recursion of `heapify` and the `while` loop of `heap_insert` are written with
  a step budget so that they evaluate structurally; `heapify_unfold` and
  `heap_insert_loop_unfold` show that the budget handed in by the callers never
  runs out: the budgeted functions satisfy the equations of the C bodies.
-/

namespace DoubleHeap

/-! ## heap.h -/

/-- The polarity of a heap: `enum heap_type {min_heap, max_heap}`. -/
inductive heap_type where
  | min_heap
  | max_heap
  deriving DecidableEq, Repr

/-- The `struct heap` of `heap.h`. -/
structure heap where
  max_size : Int
  last_index : Int
  data : Int → Int
  heap_type : heap_type

/-! ## heap.c -/

/-- C: `return x >= y;` -/
def max_compare (x y : Int) : Bool := decide (x ≥ y)

/-- C: `return x <= y;` -/
def min_compare (x y : Int) : Bool := decide (x ≤ y)

/-- The comparison installed by `construct_heap`:
`if (type == min_heap) compare_function = min_compare; else compare_function = max_compare;` -/
def heap.compare_function (h : heap) : Int → Int → Bool :=
  if h.heap_type = heap_type.min_heap then min_compare else max_compare

/-- The assignment `data[i] = v`. -/
def write (data : Int → Int) (i v : Int) : Int → Int :=
  fun k => if k = i then v else data k

/-- C: `temp = data[i]; data[i] = data[j]; data[j] = temp;` -/
def swap_elements (data : Int → Int) (i j : Int) : Int → Int :=
  let temp := data i
  let data1 := write data i (data j)
  write data1 j temp

/-- C: `construct_heap(max_size, type)`; `mem` is the content of the allocated block. -/
def construct_heap (max_size : Int) (type : heap_type) (mem : Int → Int) : heap :=
  { max_size := max_size, last_index := -1, data := mem, heap_type := type }

/-- C: `return (i - 1)/2;` -/
def parent (i : Int) : Int := (i - 1).tdiv 2

/-- C: `return 2*i + 1;` -/
def left (i : Int) : Int := 2 * i + 1

/-- C: `return 2*i + 2;` -/
def right (i : Int) : Int := 2 * i + 2

/-- The body of `heapify`, with a budget of recursive calls. -/
def heapifyAux : Nat → heap → Int → heap
  | 0, h, _ => h
  | fuel + 1, h, i =>
    let l := left i
    let r := right i
    let selection :=
      if l ≤ h.last_index && h.compare_function (h.data l) (h.data i) then l else i
    let selection :=
      if r ≤ h.last_index && h.compare_function (h.data r) (h.data selection) then r
      else selection
    if selection ≠ i then
      heapifyAux fuel { h with data := swap_elements h.data i selection } selection
    else h

/-- C: `heapify(heap_object, i)`.  Every recursive call is on a larger index that is
at most `last_index`, so `last_index - i + 1` steps are enough (`heapify_unfold`). -/
def heapify (h : heap) (i : Int) : heap :=
  heapifyAux (h.last_index - i + 1).toNat h i

/-- The second loop of `array_to_heap`, `for (i = ...; 0 <= i; i--) heapify(h, i);`,
with `n` iterations left: they are for `i = n - 1, ..., 0`. -/
def array_to_heap_loop : Nat → heap → heap
  | 0, h => h
  | n + 1, h => array_to_heap_loop n (heapify h (n : Int))

/-- The first loop of `array_to_heap`, `for (i = 0; i < size; i++) data[i] = elements[i];`.
The source array is a list; a read past its end is modelled as 0. -/
def array_to_heap_copy (elements : List Int) (size : Int) (data : Int → Int) : Int → Int :=
  (List.range size.toNat).foldl (fun d (i : Nat) => write d (i : Int) (elements.getD i 0)) data

/-- C: `array_to_heap(elements, size, type)`. -/
def array_to_heap (elements : List Int) (size : Int) (type : heap_type)
    (mem : Int → Int) : heap :=
  let elements_heap := construct_heap size type mem
  let elements_heap := { elements_heap with last_index := size - 1 }
  let elements_heap :=
    { elements_heap with data := array_to_heap_copy elements size elements_heap.data }
  array_to_heap_loop ((elements_heap.last_index.tdiv 2) + 1).toNat elements_heap

/-- The `while` loop of `heap_insert`, with a budget of iterations. -/
def heap_insert_loop : Nat → heap → Int → heap
  | 0, h, _ => h
  | fuel + 1, h, i =>
    if i > 0 && h.compare_function (h.data i) (h.data (parent i)) then
      heap_insert_loop fuel { h with data := swap_elements h.data i (parent i) } (parent i)
    else h

/-- C: `heap_insert(heap_object, key)`.  The loop index decreases at every iteration
and the loop stops at 0, so `i` iterations are enough (`heap_insert_loop_unfold`). -/
def heap_insert (h : heap) (key : Int) : heap :=
  if h.last_index = h.max_size - 1 then h
  else
    let i := h.last_index + 1
    let h1 := { h with last_index := i, data := write h.data i key }
    heap_insert_loop i.toNat h1 i

/-- C: `heap_extract(heap_object)`.  The test `last_index == -1` only prints a
message: there is no `return` in it, so the code below it runs for an empty heap
too.  The cell copied into the root is `data[(last_index)-- - 1]`, that is the
cell at the old `last_index` minus one. -/
def heap_extract (h : heap) : Int × heap :=
  let output := h.data 0
  if h.last_index = 0 then
    (output, { h with last_index := h.last_index - 1 })
  else
    let h1 := { h with data := write h.data 0 (h.data (h.last_index - 1)),
                       last_index := h.last_index - 1 }
    (output, heapify h1 0)

/-- C: `heap_top(heap_object)`. -/
def heap_top (h : heap) : Int × heap :=
  if h.last_index = -1 then (-1, h) else (h.data 0, h)

/-! ## double_heap.h, double_heap.c -/

/-- The `struct double_heap` of `double_heap.h`. -/
structure double_heap where
  max_heap : heap
  min_heap : heap
  max_size : Int
  elements_count : Int

/-- C: `construct_double_heap(max_size)`; `mem_min` and `mem_max` are the contents
of the two allocated blocks. -/
def construct_double_heap (max_size : Int) (mem_min mem_max : Int → Int) : double_heap :=
  let min_heap_size := if max_size.tmod 2 = 0 then max_size.tdiv 2 else 1 + max_size.tdiv 2
  { max_size := max_size,
    elements_count := 0,
    min_heap := construct_heap min_heap_size heap_type.min_heap mem_min,
    max_heap := construct_heap (max_size.tdiv 2) heap_type.max_heap mem_max }

/-- C: `double_heap_insert(double_heap_object, key)`. -/
def double_heap_insert (dh : double_heap) (key : Int) : double_heap :=
  let count := dh.elements_count
  if count < dh.max_size then
    let dh1 : double_heap :=
      if count = 0 then
        { dh with min_heap := heap_insert dh.min_heap key }
      else if count.tmod 2 = 0 then
        let top := heap_top dh.max_heap
        if key ≥ top.1 then
          { dh with max_heap := top.2, min_heap := heap_insert dh.min_heap key }
        else
          let ex := heap_extract top.2
          let mn := heap_insert dh.min_heap ex.1
          { dh with min_heap := mn, max_heap := heap_insert ex.2 key }
      else
        let top := heap_top dh.min_heap
        if key ≤ top.1 then
          { dh with min_heap := top.2, max_heap := heap_insert dh.max_heap key }
        else
          let ex := heap_extract top.2
          let mx := heap_insert dh.max_heap ex.1
          { dh with max_heap := mx, min_heap := heap_insert ex.2 key }
    { dh1 with elements_count := dh1.elements_count + 1 }
  else dh

/-- C: `double_heap_median(double_heap_object)`. -/
def double_heap_median (dh : double_heap) : Int × double_heap :=
  if dh.elements_count = 0 then (-1, dh)
  else
    let top := heap_top dh.min_heap
    (top.1, { dh with min_heap := top.2 })

/-- C: `double_heap_items_count(double_heap_object)`. -/
def double_heap_items_count (dh : double_heap) : Int := dh.elements_count

/-! ## Vocabulary of the specification -/

/-- The number of live elements, `last_index + 1`. -/
def heap.count (h : heap) : Int := h.last_index + 1

/-- The live cells `data[0], ..., data[last_index]`, in index order. -/
def heap.live (h : heap) : List Int :=
  (List.range (h.last_index + 1).toNat).map (fun k : Nat => h.data (k : Int))

/-- A heap as the data model describes it: `0 ≤ count ≤ capacity`. -/
def heap.wf (h : heap) : Prop := -1 ≤ h.last_index ∧ h.last_index < h.max_size

/-- Heap order: `compare_function(data[parent(i)], data[i])` at every live `i > 0`. -/
def heap.ordered (h : heap) : Prop :=
  ∀ i : Int, 0 < i → i ≤ h.last_index →
    h.compare_function (h.data (parent i)) (h.data i) = true

/-- A sequence of `double_heap_insert` calls, one per key, in order. -/
def insert_all (dh : double_heap) (ks : List Int) : double_heap :=
  ks.foldl double_heap_insert dh

/-- A sequence of `heap_insert` calls, one per key, in order. -/
def heap_insert_all (h : heap) (ks : List Int) : heap :=
  ks.foldl heap_insert h

/-- The values returned by `n` successive `heap_extract` calls, and the heap left. -/
def extract_n : Nat → heap → List Int × heap
  | 0, h => ([], h)
  | n + 1, h =>
    let r := heap_extract h
    let rest := extract_n n r.2
    (r.1 :: rest.1, rest.2)

/-- The upper median of a non-empty list: the cell of index `⌊|ks|/2⌋` of `ks` sorted
ascending. -/
def upper_median (ks : List Int) : Int :=
  (ks.insertionSort (fun a b => a ≤ b)).getD (ks.length / 2) 0

/-- A block whose cells all hold 0. -/
def zero_mem : Int → Int := fun _ => 0

/-- A heap given by the list of its live cells (cells past the list hold 0). -/
def heap_of_list (xs : List Int) (max_size : Int) (type : heap_type) : heap :=
  { max_size := max_size, last_index := (xs.length : Int) - 1,
    data := fun k => xs.getD k.toNat 0, heap_type := type }

/-- The sub-heaps that one call `double_heap_insert(dh, key)` hands to `heap_top` and
to `heap_extract`, in call order; the tests are those of `double_heap_insert`. -/
def double_heap_insert_accesses (dh : double_heap) (key : Int) : List heap :=
  let count := dh.elements_count
  if count < dh.max_size then
    if count = 0 then []
    else if count.tmod 2 = 0 then
      let top := heap_top dh.max_heap
      if key ≥ top.1 then [dh.max_heap] else [dh.max_heap, top.2]
    else
      let top := heap_top dh.min_heap
      if key ≤ top.1 then [dh.min_heap] else [dh.min_heap, top.2]
  else []

/-- The calls `heap_insert(g, k)` that one call `double_heap_insert(dh, key)` makes, as
pairs `(g, k)` in call order; the tests are those of `double_heap_insert`. -/
def double_heap_insert_inserts (dh : double_heap) (key : Int) : List (heap × Int) :=
  let count := dh.elements_count
  if count < dh.max_size then
    if count = 0 then [(dh.min_heap, key)]
    else if count.tmod 2 = 0 then
      let top := heap_top dh.max_heap
      if key ≥ top.1 then [(dh.min_heap, key)]
      else
        let ex := heap_extract top.2
        [(dh.min_heap, ex.1), (ex.2, key)]
    else
      let top := heap_top dh.min_heap
      if key ≤ top.1 then [(dh.max_heap, key)]
      else
        let ex := heap_extract top.2
        [(dh.max_heap, ex.1), (ex.2, key)]
  else []

/-- The body of `heapify` run with at most `fuel` calls of the function: `none` when
the calls allowed are used up before the recursion ends. -/
def heapify_steps : Nat → heap → Int → Option heap
  | 0, _, _ => none
  | fuel + 1, h, i =>
    let l := left i
    let r := right i
    let selection :=
      if l ≤ h.last_index && h.compare_function (h.data l) (h.data i) then l else i
    let selection :=
      if r ≤ h.last_index && h.compare_function (h.data r) (h.data selection) then r
      else selection
    if selection ≠ i then
      heapify_steps fuel { h with data := swap_elements h.data i selection } selection
    else some h

/-- The `while` loop of `heap_insert` run with at most `fuel` evaluations of its
condition: `none` when they are used up before the loop ends. -/
def heap_insert_loop_steps : Nat → heap → Int → Option heap
  | 0, _, _ => none
  | fuel + 1, h, i =>
    if i > 0 && h.compare_function (h.data i) (h.data (parent i)) then
      heap_insert_loop_steps fuel
        { h with data := swap_elements h.data i (parent i) } (parent i)
    else some h

/-- The indices of the subtree rooted at `i`: `i` itself, and the children
`2*k + 1` and `2*k + 2` of every index `k` of the subtree. -/
inductive in_subtree (i : Int) : Int → Prop where
  | root : in_subtree i i
  | to_left (k : Int) : in_subtree i k → in_subtree i (left k)
  | to_right (k : Int) : in_subtree i k → in_subtree i (right k)

/-- Heap order in the subtree rooted at `r`: `compare_function(data[parent(k)], data[k])`
at every live `k > 0` whose parent is in the subtree. -/
def subtree_ordered (h : heap) (r : Int) : Prop :=
  ∀ k : Int, 0 < k → k ≤ h.last_index → in_subtree r (parent k) →
    h.compare_function (h.data (parent k)) (h.data k) = true

/-! ## Vocabulary of the proofs -/

/-- The index `selection` computed by one run of the body of `heapify`. -/
def heapify_selection (h : heap) (i : Int) : Int :=
  let l := left i
  let r := right i
  let selection :=
    if l ≤ h.last_index && h.compare_function (h.data l) (h.data i) then l else i
  if r ≤ h.last_index && h.compare_function (h.data r) (h.data selection) then r
  else selection

/-- Heap order at every live edge whose parent is at least `lo` and is not `i`. -/
def ord_except (h : heap) (lo i : Int) : Prop :=
  ∀ k : Int, 0 < k → k ≤ h.last_index → lo ≤ parent k → parent k ≠ i →
    h.compare_function (h.data (parent k)) (h.data k) = true

/-- Heap order at every live edge whose parent is at least `lo`. -/
def ord_from (h : heap) (lo : Int) : Prop :=
  ∀ k : Int, 0 < k → k ≤ h.last_index → lo ≤ parent k →
    h.compare_function (h.data (parent k)) (h.data k) = true

/-- The live offsets `0, ..., n`. -/
def idx (n : Int) : List Int := (List.range (n + 1).toNat).map (fun k : Nat => (k : Int))

/-- The invariant of the sift-up loop at index `i`: heap order holds at every live
edge but the one above `i`, and the parent of `i` compares well with the children
of `i`. -/
def sift_inv (h : heap) (i : Int) : Prop :=
  (∀ k : Int, 0 < k → k ≤ h.last_index → k ≠ i →
    h.compare_function (h.data (parent k)) (h.data k) = true) ∧
  (0 < i → ∀ c : Int, c ≤ h.last_index → (c = left i ∨ c = right i) →
    h.compare_function (h.data (parent i)) (h.data c) = true)

/-- What every state reached from `construct_double_heap C` satisfies. -/
structure dh_inv (C : Int) (dh : double_heap) : Prop where
  max_size_eq : dh.max_size = C
  count_nonneg : 0 ≤ dh.elements_count
  count_le : dh.elements_count ≤ C
  min_type : dh.min_heap.heap_type = heap_type.min_heap
  max_type : dh.max_heap.heap_type = heap_type.max_heap
  min_cap : dh.min_heap.max_size = (C + 1) / 2
  max_cap : dh.max_heap.max_size = C / 2
  total : dh.elements_count = (dh.min_heap.last_index + 1) + (dh.max_heap.last_index + 1)
  balance : dh.min_heap.last_index + 1 = (dh.max_heap.last_index + 1) + dh.elements_count % 2
  min_ordered : dh.min_heap.ordered
  max_ordered : dh.max_heap.ordered
  sep : ∀ x ∈ dh.max_heap.live, ∀ y ∈ dh.min_heap.live, x ≤ y

/-! ## The comparison functions -/

theorem cmp_refl (h : heap) (a : Int) : h.compare_function a a = true := by
  unfold heap.compare_function min_compare max_compare
  split <;> simp

theorem cmp_total (h : heap) (a b : Int) (hab : h.compare_function a b = false) :
    h.compare_function b a = true := by
  unfold heap.compare_function min_compare max_compare at *
  by_cases ht : h.heap_type = heap_type.min_heap <;> simp [ht] at hab ⊢ <;> omega

theorem cmp_trans (h : heap) (a b c : Int) (hab : h.compare_function a b = true)
    (hbc : h.compare_function b c = true) : h.compare_function a c = true := by
  unfold heap.compare_function min_compare max_compare at *
  by_cases ht : h.heap_type = heap_type.min_heap <;> simp [ht] at hab hbc ⊢ <;> omega

theorem cmp_min (h : heap) (ht : h.heap_type = heap_type.min_heap) (a b : Int) :
    h.compare_function a b = true ↔ a ≤ b := by
  simp [heap.compare_function, ht, min_compare]

theorem cmp_max (h : heap) (ht : h.heap_type = heap_type.max_heap) (a b : Int) :
    h.compare_function a b = true ↔ b ≤ a := by
  simp [heap.compare_function, ht, max_compare]

theorem cmp_congr (h g : heap) (ht : g.heap_type = h.heap_type) :
    g.compare_function = h.compare_function := by
  unfold heap.compare_function
  rw [ht]

/-! ## Index arithmetic -/

theorem parent_spec (k : Int) (hk : 0 < k) : 2 * parent k + 1 = k ∨ 2 * parent k + 2 = k := by
  unfold parent
  rw [Int.tdiv_eq_ediv (by omega) (by omega)]
  omega

theorem parent_zero : parent 0 = 0 := by decide

/-! ## Reads after writes -/

theorem write_same (d : Int → Int) (i v : Int) : write d i v i = v := by
  simp [write]

theorem write_other (d : Int → Int) (i v k : Int) (hk : k ≠ i) : write d i v k = d k := by
  simp [write, hk]

theorem swap_elements_apply (d : Int → Int) (i j k : Int) :
    swap_elements d i j k = if k = j then d i else if k = i then d j else d k := by
  simp [swap_elements, write]

theorem swap_elements_fst (d : Int → Int) (i j : Int) : swap_elements d i j i = d j := by
  rw [swap_elements_apply]
  split
  · next hij => rw [hij]
  · simp

theorem swap_elements_snd (d : Int → Int) (i j : Int) : swap_elements d i j j = d i := by
  simp [swap_elements_apply]

theorem swap_elements_other (d : Int → Int) (i j k : Int) (hi : k ≠ i) (hj : k ≠ j) :
    swap_elements d i j k = d k := by
  simp [swap_elements_apply, hi, hj]

/-! ## The step budgets are enough -/

theorem heapifyAux_succ (fuel : Nat) (h : heap) (i : Int) :
    heapifyAux (fuel + 1) h i =
      if heapify_selection h i ≠ i then
        heapifyAux fuel { h with data := swap_elements h.data i (heapify_selection h i) }
          (heapify_selection h i)
      else h := rfl

theorem heapify_selection_cases (h : heap) (i : Int) :
    heapify_selection h i = i ∨
      ((heapify_selection h i = left i ∨ heapify_selection h i = right i) ∧
        heapify_selection h i ≤ h.last_index) := by
  unfold heapify_selection
  simp only [Bool.and_eq_true, decide_eq_true_eq]
  by_cases h1 : left i ≤ h.last_index ∧ h.compare_function (h.data (left i)) (h.data i) = true
  · rw [if_pos h1]
    by_cases h2 : right i ≤ h.last_index ∧
        h.compare_function (h.data (right i)) (h.data (left i)) = true
    · rw [if_pos h2]; exact Or.inr ⟨Or.inr rfl, h2.1⟩
    · rw [if_neg h2]; exact Or.inr ⟨Or.inl rfl, h1.1⟩
  · rw [if_neg h1]
    by_cases h2 : right i ≤ h.last_index ∧
        h.compare_function (h.data (right i)) (h.data i) = true
    · rw [if_pos h2]; exact Or.inr ⟨Or.inr rfl, h2.1⟩
    · rw [if_neg h2]; exact Or.inl rfl

theorem heapify_selection_gt (h : heap) (i : Int) (hi : 0 ≤ i)
    (hs : heapify_selection h i ≠ i) :
    i < heapify_selection h i ∧ heapify_selection h i ≤ h.last_index := by
  rcases heapify_selection_cases h i with h0 | ⟨h1 | h1, h2⟩
  · exact absurd h0 hs
  · refine ⟨?_, h2⟩
    rw [h1]; unfold left; omega
  · refine ⟨?_, h2⟩
    rw [h1]; unfold right; omega

theorem heapify_selection_of_last (h : heap) (i : Int) (hi : 0 ≤ i)
    (hl : h.last_index ≤ i) : heapify_selection h i = i := by
  by_contra hs
  have := heapify_selection_gt h i hi hs
  omega

theorem heapifyAux_last_index (fuel : Nat) : ∀ (h : heap) (i : Int),
    (heapifyAux fuel h i).last_index = h.last_index := by
  induction fuel with
  | zero => intro h i; rfl
  | succ n ih =>
    intro h i
    rw [heapifyAux_succ]
    split
    · rw [ih]
    · rfl

theorem heapifyAux_max_size (fuel : Nat) : ∀ (h : heap) (i : Int),
    (heapifyAux fuel h i).max_size = h.max_size := by
  induction fuel with
  | zero => intro h i; rfl
  | succ n ih =>
    intro h i
    rw [heapifyAux_succ]
    split
    · rw [ih]
    · rfl

theorem heapifyAux_heap_type (fuel : Nat) : ∀ (h : heap) (i : Int),
    (heapifyAux fuel h i).heap_type = h.heap_type := by
  induction fuel with
  | zero => intro h i; rfl
  | succ n ih =>
    intro h i
    rw [heapifyAux_succ]
    split
    · rw [ih]
    · rfl

/-- Two budgets of at least `last_index - i + 1` steps give the same result. -/
theorem heapifyAux_fuel (fuel : Nat) : ∀ (fuel' : Nat) (h : heap) (i : Int), 0 ≤ i →
    (h.last_index - i + 1).toNat ≤ fuel → (h.last_index - i + 1).toNat ≤ fuel' →
    heapifyAux fuel h i = heapifyAux fuel' h i := by
  induction fuel with
  | zero =>
    intro fuel' h i hi hf _
    have hs : heapify_selection h i = i := heapify_selection_of_last h i hi (by omega)
    cases fuel' with
    | zero => rfl
    | succ m => rw [heapifyAux_succ, if_neg (by simpa using hs)]; rfl
  | succ n ih =>
    intro fuel' h i hi hf hf'
    cases fuel' with
    | zero =>
      have hs : heapify_selection h i = i := heapify_selection_of_last h i hi (by omega)
      rw [heapifyAux_succ, if_neg (by simpa using hs)]; rfl
    | succ m =>
      rw [heapifyAux_succ, heapifyAux_succ]
      by_cases hs : heapify_selection h i = i
      · rw [if_neg (by simpa using hs), if_neg (by simpa using hs)]
      · have hgt := heapify_selection_gt h i hi hs
        rw [if_pos hs, if_pos hs]
        exact ih _ _ _ (by omega) (by simp only; omega) (by simp only; omega)

/-- The model of `heapify` satisfies the equation of the C body: compute
`selection`; when it differs from `i`, swap and call `heapify` on `selection`. -/
theorem heapify_unfold (h : heap) (i : Int) (hi : 0 ≤ i) :
    heapify h i =
      if heapify_selection h i ≠ i then
        heapify { h with data := swap_elements h.data i (heapify_selection h i) }
          (heapify_selection h i)
      else h := by
  unfold heapify
  by_cases hs : heapify_selection h i = i
  · rw [if_neg (by simpa using hs)]
    cases hm : (h.last_index - i + 1).toNat with
    | zero => rfl
    | succ m => rw [heapifyAux_succ, if_neg (by simpa using hs)]
  · have hgt := heapify_selection_gt h i hi hs
    obtain ⟨m, hm⟩ : ∃ m, (h.last_index - i + 1).toNat = m + 1 :=
      ⟨(h.last_index - i).toNat, by omega⟩
    rw [hm, heapifyAux_succ, if_pos hs, if_pos hs]
    exact heapifyAux_fuel _ _ _ _ (by omega) (by simp only; omega) (by simp only; omega)

theorem heap_insert_loop_succ (fuel : Nat) (h : heap) (i : Int) :
    heap_insert_loop (fuel + 1) h i =
      if i > 0 && h.compare_function (h.data i) (h.data (parent i)) then
        heap_insert_loop fuel { h with data := swap_elements h.data i (parent i) } (parent i)
      else h := rfl

theorem heap_insert_loop_nonpos (fuel : Nat) (h : heap) (i : Int) (hi : i ≤ 0) :
    heap_insert_loop fuel h i = h := by
  cases fuel with
  | zero => rfl
  | succ n =>
    rw [heap_insert_loop_succ, if_neg]
    simp only [Bool.and_eq_true, decide_eq_true_eq, not_and]
    intro hh
    omega

/-- Two budgets of at least `i` iterations give the same result. -/
theorem heap_insert_loop_fuel (fuel : Nat) : ∀ (fuel' : Nat) (h : heap) (i : Int),
    i.toNat ≤ fuel → i.toNat ≤ fuel' →
    heap_insert_loop fuel h i = heap_insert_loop fuel' h i := by
  induction fuel with
  | zero =>
    intro fuel' h i hf _
    rw [heap_insert_loop_nonpos _ _ _ (by omega), heap_insert_loop_nonpos _ _ _ (by omega)]
  | succ n ih =>
    intro fuel' h i hf hf'
    cases fuel' with
    | zero =>
      rw [heap_insert_loop_nonpos _ _ _ (by omega), heap_insert_loop_nonpos _ _ _ (by omega)]
    | succ m =>
      by_cases hpos : 0 < i
      · have hp := parent_spec i hpos
        rw [heap_insert_loop_succ, heap_insert_loop_succ]
        split
        · exact ih _ _ _ (by omega) (by omega)
        · rfl
      · rw [heap_insert_loop_nonpos _ _ _ (by omega), heap_insert_loop_nonpos _ _ _ (by omega)]

/-- The model of the `while` loop of `heap_insert` satisfies the equation of the C
loop: test the condition; when it holds, swap, move to the parent and loop. -/
theorem heap_insert_loop_unfold (h : heap) (i : Int) :
    heap_insert_loop i.toNat h i =
      if i > 0 && h.compare_function (h.data i) (h.data (parent i)) then
        heap_insert_loop (parent i).toNat
          { h with data := swap_elements h.data i (parent i) } (parent i)
      else h := by
  by_cases hpos : 0 < i
  · have hp := parent_spec i hpos
    obtain ⟨m, hm⟩ : ∃ m, i.toNat = m + 1 := ⟨(i - 1).toNat, by omega⟩
    rw [hm, heap_insert_loop_succ]
    split
    · exact heap_insert_loop_fuel _ _ _ _ (by omega) (by omega)
    · rfl
  · rw [heap_insert_loop_nonpos _ _ _ (by omega), if_neg]
    simp only [Bool.and_eq_true, decide_eq_true_eq, not_and]
    intro hh
    omega

/-! ## Sift-down restores heap order -/

/-- What the two tests of `heapify` guarantee about `selection`: its cell compares
well with the cell of `i` and with the cells of the live children of `i`. -/
theorem heapify_selection_spec (h : heap) (i : Int) :
    h.compare_function (h.data (heapify_selection h i)) (h.data i) = true ∧
    (left i ≤ h.last_index →
      h.compare_function (h.data (heapify_selection h i)) (h.data (left i)) = true) ∧
    (right i ≤ h.last_index →
      h.compare_function (h.data (heapify_selection h i)) (h.data (right i)) = true) := by
  unfold heapify_selection
  simp only [Bool.and_eq_true, decide_eq_true_eq]
  by_cases h1 : left i ≤ h.last_index ∧ h.compare_function (h.data (left i)) (h.data i) = true
  · rw [if_pos h1]
    by_cases h2 : right i ≤ h.last_index ∧
        h.compare_function (h.data (right i)) (h.data (left i)) = true
    · rw [if_pos h2]
      exact ⟨cmp_trans h _ _ _ h2.2 h1.2, fun _ => h2.2, fun _ => cmp_refl h _⟩
    · rw [if_neg h2]
      refine ⟨h1.2, fun _ => cmp_refl h _, fun hr => ?_⟩
      apply cmp_total
      cases hc : h.compare_function (h.data (right i)) (h.data (left i)) with
      | false => rfl
      | true => exact absurd ⟨hr, hc⟩ h2
  · rw [if_neg h1]
    have hl : left i ≤ h.last_index →
        h.compare_function (h.data i) (h.data (left i)) = true := by
      intro hl
      apply cmp_total
      cases hc : h.compare_function (h.data (left i)) (h.data i) with
      | false => rfl
      | true => exact absurd ⟨hl, hc⟩ h1
    by_cases h2 : right i ≤ h.last_index ∧
        h.compare_function (h.data (right i)) (h.data i) = true
    · rw [if_pos h2]
      exact ⟨h2.2, fun hl' => cmp_trans h _ _ _ h2.2 (hl hl'), fun _ => cmp_refl h _⟩
    · rw [if_neg h2]
      refine ⟨cmp_refl h _, hl, fun hr => ?_⟩
      apply cmp_total
      cases hc : h.compare_function (h.data (right i)) (h.data i) with
      | false => rfl
      | true => exact absurd ⟨hr, hc⟩ h2

theorem ordered_iff_ord_from (h : heap) : h.ordered ↔ ord_from h 0 := by
  constructor
  · intro ho k hk1 hk2 _
    exact ho k hk1 hk2
  · intro ho k hk1 hk2
    have := parent_spec k hk1
    exact ho k hk1 hk2 (by omega)

theorem ord_from_of_selection_eq (h : heap) (lo i : Int)
    (hs : heapify_selection h i = i) (hex : ord_except h lo i) : ord_from h lo := by
  intro k hk1 hk2 hlo
  by_cases hp : parent k = i
  · have hps := parent_spec k hk1
    have hsp := heapify_selection_spec h i
    rw [hs] at hsp
    rw [hp]
    rcases hps with hps | hps
    · have hk : k = left i := by unfold left; omega
      rw [hk]; apply hsp.2.1; rw [← hk]; exact hk2
    · have hk : k = right i := by unfold right; omega
      rw [hk]; apply hsp.2.2; rw [← hk]; exact hk2
  · exact hex k hk1 hk2 hlo hp

/-- Sift-down: when heap order holds at every edge (with parent at least `lo`) but
those below `i`, and the parent of `i` compares well with the children of `i`, then
after `heapify` at `i` heap order holds at every edge with parent at least `lo`. -/
theorem heapifyAux_order (lo : Int) (fuel : Nat) : ∀ (h : heap) (i : Int), 0 ≤ i →
    (h.last_index - i + 1).toNat ≤ fuel → ord_except h lo i →
    (0 < i → lo ≤ parent i → ∀ c : Int, (c = left i ∨ c = right i) → c ≤ h.last_index →
      h.compare_function (h.data (parent i)) (h.data c) = true) →
    ord_from (heapifyAux fuel h i) lo := by
  induction fuel with
  | zero =>
    intro h i hi hf hex _
    exact ord_from_of_selection_eq h lo i (heapify_selection_of_last h i hi (by omega)) hex
  | succ n ih =>
    intro h i hi hf hex hpar
    rw [heapifyAux_succ]
    by_cases hs : heapify_selection h i = i
    · rw [if_neg (by simpa using hs)]
      exact ord_from_of_selection_eq h lo i hs hex
    · rw [if_pos hs]
      have hgt := heapify_selection_gt h i hi hs
      have hsp := heapify_selection_spec h i
      have hch : heapify_selection h i = left i ∨ heapify_selection h i = right i := by
        rcases heapify_selection_cases h i with h0 | h0
        · exact absurd h0 hs
        · exact h0.1
      generalize heapify_selection h i = c at hs hgt hsp hch
      have hpc : parent c = i := by
        have := parent_spec c (by omega)
        unfold left right at hch
        omega
      apply ih
      · exact hgt.1.le.trans' hi
      · simp only; omega
      · intro k hk1 hk2 hlo hpk
        have hps := parent_spec k hk1
        show h.compare_function (swap_elements h.data i c (parent k))
          (swap_elements h.data i c k) = true
        by_cases hpi : parent k = i
        · rw [hpi, swap_elements_fst]
          by_cases hkc : k = c
          · rw [hkc, swap_elements_snd]; exact hsp.1
          · rw [swap_elements_other _ _ _ _ (by omega) hkc]
            rcases hps with hps | hps
            · have hk : k = left i := by unfold left; omega
              rw [hk]; apply hsp.2.1; rw [← hk]; exact hk2
            · have hk : k = right i := by unfold right; omega
              rw [hk]; apply hsp.2.2; rw [← hk]; exact hk2
        · rw [swap_elements_other _ _ _ _ hpi hpk]
          by_cases hki : k = i
          · rw [hki, swap_elements_fst]
            rw [hki] at hk1 hlo
            exact hpar hk1 hlo c hch hgt.2
          · have hkc : k ≠ c := by
              intro hkc
              rw [hkc] at hpi
              exact hpi hpc
            rw [swap_elements_other _ _ _ _ hki hkc]
            exact hex k hk1 hk2 hlo hpi
      · intro hc0 hloc g hg hgl
        show h.compare_function (swap_elements h.data i c (parent c))
          (swap_elements h.data i c g) = true
        have hg0 : c < g := by unfold left right at hg; omega
        have hpg : parent g = c := by
          have := parent_spec g (by omega)
          unfold left right at hg
          omega
        rw [hpc, swap_elements_fst, swap_elements_other _ _ _ _ (by omega) (by omega)]
        have := hex g (by omega) hgl (by rw [hpg]; rw [hpc] at hloc; omega)
          (by rw [hpg]; exact hs)
        rw [hpg] at this
        exact this

/-! ## Swaps keep the multiset of live cells -/

theorem live_eq_map (h : heap) : h.live = (idx h.last_index).map h.data := by
  unfold heap.live idx
  rw [List.map_map]
  rfl

theorem mem_idx (n k : Int) : k ∈ idx n ↔ 0 ≤ k ∧ k ≤ n := by
  unfold idx
  simp only [List.mem_map, List.mem_range]
  constructor
  · rintro ⟨a, ha, rfl⟩
    omega
  · intro hk
    exact ⟨k.toNat, by omega, by omega⟩

theorem nodup_idx (n : Int) : (idx n).Nodup := by
  unfold idx
  exact List.Nodup.map (fun a b hab => by exact_mod_cast hab) (List.nodup_range _)

theorem mem_live (h : heap) (x : Int) :
    x ∈ h.live ↔ ∃ k : Int, 0 ≤ k ∧ k ≤ h.last_index ∧ h.data k = x := by
  rw [live_eq_map, List.mem_map]
  constructor
  · rintro ⟨k, hk, rfl⟩
    rw [mem_idx] at hk
    exact ⟨k, hk.1, hk.2, rfl⟩
  · rintro ⟨k, hk1, hk2, rfl⟩
    exact ⟨k, (mem_idx _ _).2 ⟨hk1, hk2⟩, rfl⟩

theorem length_live (h : heap) : h.live.length = (h.last_index + 1).toNat := by
  unfold heap.live
  simp

theorem swap_perm (d : Int → Int) (n i j : Int) (hi0 : 0 ≤ i) (hin : i ≤ n)
    (hj0 : 0 ≤ j) (hjn : j ≤ n) :
    ((idx n).map (swap_elements d i j)).Perm ((idx n).map d) := by
  have hfun : swap_elements d i j = d ∘ (Equiv.swap i j) := by
    funext k
    rw [swap_elements_apply, Function.comp_apply, Equiv.swap_apply_def]
    by_cases h1 : k = j
    · subst h1
      by_cases h2 : k = i
      · subst h2; simp
      · simp [h2]
    · by_cases h2 : k = i
      · subst h2; simp [h1]
      · simp [h1, h2]
  rw [hfun, ← List.map_map]
  apply List.Perm.map
  rw [List.perm_ext_iff_of_nodup
    (List.Nodup.map (Equiv.injective _) (nodup_idx n)) (nodup_idx n)]
  intro a
  rw [List.mem_map, mem_idx]
  constructor
  · rintro ⟨b, hb, rfl⟩
    rw [mem_idx] at hb
    rw [Equiv.swap_apply_def]
    split_ifs <;> omega
  · intro ha
    refine ⟨Equiv.swap i j a, ?_, by simp⟩
    rw [mem_idx, Equiv.swap_apply_def]
    split_ifs <;> omega

theorem heapifyAux_perm (fuel : Nat) : ∀ (h : heap) (i : Int), 0 ≤ i →
    (heapifyAux fuel h i).live.Perm h.live := by
  induction fuel with
  | zero => intro h i _; exact List.Perm.refl _
  | succ n ih =>
    intro h i hi
    rw [heapifyAux_succ]
    by_cases hs : heapify_selection h i = i
    · rw [if_neg (by simpa using hs)]
    · rw [if_pos hs]
      have hgt := heapify_selection_gt h i hi hs
      refine (ih _ _ (by omega)).trans ?_
      rw [live_eq_map, live_eq_map]
      exact swap_perm h.data h.last_index i _ hi (by omega) (by omega) hgt.2

/-! ## heapify -/

theorem heapify_last_index (h : heap) (i : Int) : (heapify h i).last_index = h.last_index :=
  heapifyAux_last_index _ h i

theorem heapify_max_size (h : heap) (i : Int) : (heapify h i).max_size = h.max_size :=
  heapifyAux_max_size _ h i

theorem heapify_heap_type (h : heap) (i : Int) : (heapify h i).heap_type = h.heap_type :=
  heapifyAux_heap_type _ h i

theorem heapify_perm (h : heap) (i : Int) (hi : 0 ≤ i) : (heapify h i).live.Perm h.live :=
  heapifyAux_perm _ h i hi

theorem heapify_order (lo : Int) (h : heap) (i : Int) (hi : 0 ≤ i)
    (hex : ord_except h lo i)
    (hpar : 0 < i → lo ≤ parent i → ∀ c : Int, (c = left i ∨ c = right i) →
      c ≤ h.last_index → h.compare_function (h.data (parent i)) (h.data c) = true) :
    ord_from (heapify h i) lo :=
  heapifyAux_order lo _ h i hi (le_refl _) hex hpar

/-! ## The root holds the extreme element -/

theorem root_extreme (h : heap) (ho : h.ordered) (k : Int) (hk0 : 0 ≤ k)
    (hkn : k ≤ h.last_index) : h.compare_function (h.data 0) (h.data k) = true := by
  have key : ∀ (m : Nat) (k : Int), 0 ≤ k → k ≤ m → k ≤ h.last_index →
      h.compare_function (h.data 0) (h.data k) = true := by
    intro m
    induction m with
    | zero =>
      intro k h0 h1 _
      have hk : k = 0 := by omega
      rw [hk]; exact cmp_refl h _
    | succ n ih =>
      intro k h0 h1 h2
      by_cases hk : k = 0
      · rw [hk]; exact cmp_refl h _
      · have hp := parent_spec k (by omega)
        exact cmp_trans h _ _ _ (ih (parent k) (by omega) (by push_cast at h1; omega) (by omega))
          (ho k (by omega) h2)
  exact key k.toNat k hk0 (by omega) hkn

/-! ## heap_insert -/

theorem heap_insert_loop_last_index (fuel : Nat) : ∀ (h : heap) (i : Int),
    (heap_insert_loop fuel h i).last_index = h.last_index := by
  induction fuel with
  | zero => intro h i; rfl
  | succ n ih =>
    intro h i
    rw [heap_insert_loop_succ]
    split
    · rw [ih]
    · rfl

theorem heap_insert_loop_max_size (fuel : Nat) : ∀ (h : heap) (i : Int),
    (heap_insert_loop fuel h i).max_size = h.max_size := by
  induction fuel with
  | zero => intro h i; rfl
  | succ n ih =>
    intro h i
    rw [heap_insert_loop_succ]
    split
    · rw [ih]
    · rfl

theorem heap_insert_loop_heap_type (fuel : Nat) : ∀ (h : heap) (i : Int),
    (heap_insert_loop fuel h i).heap_type = h.heap_type := by
  induction fuel with
  | zero => intro h i; rfl
  | succ n ih =>
    intro h i
    rw [heap_insert_loop_succ]
    split
    · rw [ih]
    · rfl

theorem heap_insert_loop_perm (fuel : Nat) : ∀ (h : heap) (i : Int), 0 ≤ i →
    i ≤ h.last_index → (heap_insert_loop fuel h i).live.Perm h.live := by
  induction fuel with
  | zero => intro h i _ _; exact List.Perm.refl _
  | succ n ih =>
    intro h i hi hin
    rw [heap_insert_loop_succ]
    split
    · next hc =>
      simp only [Bool.and_eq_true, decide_eq_true_eq] at hc
      have hp := parent_spec i hc.1
      refine (ih _ _ (by omega) (by simp only; omega)).trans ?_
      rw [live_eq_map, live_eq_map]
      exact swap_perm h.data h.last_index i _ hi hin (by omega) (by omega)
    · exact List.Perm.refl _

theorem heap_insert_loop_order (fuel : Nat) : ∀ (h : heap) (i : Int), 0 ≤ i →
    i ≤ h.last_index → i.toNat ≤ fuel → sift_inv h i →
    (heap_insert_loop fuel h i).ordered := by
  induction fuel with
  | zero =>
    intro h i hi _ hf hinv k hk1 hk2
    exact hinv.1 k hk1 hk2 (by omega)
  | succ n ih =>
    intro h i hi hin hf hinv
    rw [heap_insert_loop_succ]
    split
    · next hc =>
      simp only [Bool.and_eq_true, decide_eq_true_eq] at hc
      obtain ⟨hpos, hc⟩ := hc
      have hp := parent_spec i hpos
      generalize hpe : parent i = p at hp hc
      apply ih _ _ (by omega) (by simp only; omega) (by omega)
      constructor
      · intro k hk1 hk2 hkp
        simp only at hk2
        have hq := parent_spec k hk1
        show h.compare_function (swap_elements h.data i p (parent k))
          (swap_elements h.data i p k) = true
        by_cases hki : k = i
        · rw [hki, hpe, swap_elements_snd, swap_elements_fst]; exact hc
        · rw [swap_elements_other _ _ _ _ hki hkp]
          by_cases hqi : parent k = i
          · rw [hqi, swap_elements_fst]
            have := hinv.2 hpos k hk2 (by unfold left right; omega)
            rw [hpe] at this
            exact this
          · by_cases hqp : parent k = p
            · rw [hqp, swap_elements_snd]
              have := hinv.1 k hk1 hk2 hki
              rw [hqp] at this
              exact cmp_trans h _ _ _ hc this
            · rw [swap_elements_other _ _ _ _ hqi hqp]
              exact hinv.1 k hk1 hk2 hki
      · intro hp0 c hcn hcc
        simp only at hcn
        have hpp := parent_spec p hp0
        show h.compare_function (swap_elements h.data i p (parent p))
          (swap_elements h.data i p c) = true
        rw [swap_elements_other _ _ _ _ (by omega) (by omega)]
        have hA := hinv.1 p hp0 (by omega) (by omega)
        by_cases hci : c = i
        · rw [hci, swap_elements_fst]; exact hA
        · have hcp : parent c = p := by
            have := parent_spec c (by unfold left right at hcc; omega)
            unfold left right at hcc
            omega
          rw [swap_elements_other _ _ _ _ hci (by unfold left right at hcc; omega)]
          have hB := hinv.1 c (by unfold left right at hcc; omega) hcn hci
          rw [hcp] at hB
          exact cmp_trans h _ _ _ hA hB
    · next hc =>
      simp only [Bool.and_eq_true, decide_eq_true_eq, not_and] at hc
      intro k hk1 hk2
      by_cases hki : k = i
      · rw [hki]
        apply cmp_total
        rw [hki] at hk1
        simpa using hc hk1
      · exact hinv.1 k hk1 hk2 hki

theorem heap_insert_full (h : heap) (key : Int) (hf : h.last_index = h.max_size - 1) :
    heap_insert h key = h := by
  unfold heap_insert
  rw [if_pos hf]

theorem heap_insert_eq (h : heap) (key : Int) (hf : h.last_index ≠ h.max_size - 1) :
    heap_insert h key =
      heap_insert_loop (h.last_index + 1).toNat
        { h with last_index := h.last_index + 1,
                 data := write h.data (h.last_index + 1) key } (h.last_index + 1) := by
  unfold heap_insert
  rw [if_neg hf]

theorem heap_insert_last_index (h : heap) (key : Int) (hf : h.last_index ≠ h.max_size - 1) :
    (heap_insert h key).last_index = h.last_index + 1 := by
  rw [heap_insert_eq h key hf, heap_insert_loop_last_index]

theorem heap_insert_max_size (h : heap) (key : Int) :
    (heap_insert h key).max_size = h.max_size := by
  unfold heap_insert
  split
  · rfl
  · simp only [heap_insert_loop_max_size]

theorem heap_insert_heap_type (h : heap) (key : Int) :
    (heap_insert h key).heap_type = h.heap_type := by
  unfold heap_insert
  split
  · rfl
  · simp only [heap_insert_loop_heap_type]

theorem idx_succ (n : Int) (hn : -1 ≤ n) : idx (n + 1) = idx n ++ [n + 1] := by
  unfold idx
  have h1 : (n + 1 + 1).toNat = (n + 1).toNat + 1 := by omega
  rw [h1, List.range_succ, List.map_append]
  simp only [List.map_cons, List.map_nil]
  congr 2
  omega

theorem heap_insert_perm (h : heap) (key : Int) (hn : -1 ≤ h.last_index)
    (hf : h.last_index ≠ h.max_size - 1) :
    (heap_insert h key).live.Perm (h.live ++ [key]) := by
  rw [heap_insert_eq h key hf]
  refine (heap_insert_loop_perm _ _ _ (by omega) (by simp only; omega)).trans ?_
  rw [live_eq_map, live_eq_map]
  simp only
  rw [idx_succ _ hn, List.map_append]
  simp only [List.map_cons, List.map_nil, write_same]
  have : (idx h.last_index).map (write h.data (h.last_index + 1) key) =
      (idx h.last_index).map h.data := by
    apply List.map_congr_left
    intro a ha
    rw [mem_idx] at ha
    exact write_other _ _ _ _ (by omega)
  rw [this]

theorem heap_insert_ordered (h : heap) (key : Int) (hn : -1 ≤ h.last_index)
    (ho : h.ordered) : (heap_insert h key).ordered := by
  by_cases hf : h.last_index = h.max_size - 1
  · rw [heap_insert_full h key hf]; exact ho
  · rw [heap_insert_eq h key hf]
    apply heap_insert_loop_order _ _ _ (by omega) (by simp only; omega) (le_refl _)
    constructor
    · intro k hk1 hk2 hkn
      simp only at hk2 ⊢
      have hp := parent_spec k hk1
      rw [write_other _ _ _ _ hkn, write_other _ _ _ _ (by omega)]
      exact ho k hk1 (by omega)
    · intro _ c hc hcc
      simp only at hc
      unfold left right at hcc
      omega

/-! ## heap_extract -/

theorem heap_extract_fst (h : heap) : (heap_extract h).1 = h.data 0 := by
  unfold heap_extract
  split <;> rfl

theorem heap_extract_last_index (h : heap) :
    (heap_extract h).2.last_index = h.last_index - 1 := by
  unfold heap_extract
  split
  · rfl
  · simp only [heapify_last_index]

theorem heap_extract_max_size (h : heap) : (heap_extract h).2.max_size = h.max_size := by
  unfold heap_extract
  split
  · rfl
  · simp only [heapify_max_size]

theorem heap_extract_heap_type (h : heap) : (heap_extract h).2.heap_type = h.heap_type := by
  unfold heap_extract
  split
  · rfl
  · simp only [heapify_heap_type]

theorem heap_extract_ordered (h : heap) (ho : h.ordered) :
    (heap_extract h).2.ordered := by
  unfold heap_extract
  split
  · next h0 =>
    intro k hk1 hk2
    simp only at hk2
    omega
  · next h0 =>
    simp only
    rw [ordered_iff_ord_from]
    apply heapify_order 0 _ 0 (le_refl _)
    · intro k hk1 hk2 _ hpk
      simp only at hk2 ⊢
      rw [write_other _ _ _ _ hpk, write_other _ _ _ _ (by omega)]
      exact ho k hk1 (by omega)
    · intro hlt
      omega

theorem heap_extract_mem (h : heap) (hn : 0 ≤ h.last_index) (x : Int)
    (hx : x ∈ (heap_extract h).2.live) : x ∈ h.live := by
  unfold heap_extract at hx
  split at hx
  · next h0 =>
    rw [mem_live] at hx
    obtain ⟨k, hk0, hk1, _⟩ := hx
    simp only at hk1
    omega
  · next h0 =>
    simp only at hx
    have hx := (heapify_perm _ 0 (le_refl _)).mem_iff.1 hx
    rw [mem_live] at hx ⊢
    obtain ⟨k, hk0, hk1, hkx⟩ := hx
    simp only at hk1 hkx
    by_cases hk : k = 0
    · rw [hk, write_same] at hkx
      exact ⟨h.last_index - 1, by omega, by omega, hkx⟩
    · rw [write_other _ _ _ _ hk] at hkx
      exact ⟨k, hk0, by omega, hkx⟩

theorem heap_insert_mem (h : heap) (key : Int) (hn : -1 ≤ h.last_index)
    (hf : h.last_index ≠ h.max_size - 1) (x : Int) :
    x ∈ (heap_insert h key).live ↔ x ∈ h.live ∨ x = key := by
  rw [(heap_insert_perm h key hn hf).mem_iff]
  simp

/-! ## heap_top -/

theorem heap_top_snd (h : heap) : (heap_top h).2 = h := by
  unfold heap_top
  split <;> rfl

theorem heap_top_fst (h : heap) (hn : h.last_index ≠ -1) : (heap_top h).1 = h.data 0 := by
  unfold heap_top
  rw [if_neg hn]

theorem root_mem_live (h : heap) (hn : 0 ≤ h.last_index) : h.data 0 ∈ h.live :=
  (mem_live h _).2 ⟨0, le_refl _, hn, rfl⟩

theorem root_le_of_min (h : heap) (ht : h.heap_type = heap_type.min_heap) (ho : h.ordered)
    (x : Int) (hx : x ∈ h.live) : h.data 0 ≤ x := by
  obtain ⟨k, hk0, hk1, rfl⟩ := (mem_live h x).1 hx
  exact (cmp_min h ht _ _).1 (root_extreme h ho k hk0 hk1)

theorem le_root_of_max (h : heap) (ht : h.heap_type = heap_type.max_heap) (ho : h.ordered)
    (x : Int) (hx : x ∈ h.live) : x ≤ h.data 0 := by
  obtain ⟨k, hk0, hk1, rfl⟩ := (mem_live h x).1 hx
  exact (cmp_max h ht _ _).1 (root_extreme h ho k hk0 hk1)

/-! ## array_to_heap -/

theorem array_to_heap_copy_apply (elements : List Int) (size : Int) (d : Int → Int)
    (k : Int) :
    array_to_heap_copy elements size d k =
      if 0 ≤ k ∧ k < size then elements.getD k.toNat 0 else d k := by
  have key : ∀ n : Nat,
      (List.range n).foldl (fun d (i : Nat) => write d (i : Int) (elements.getD i 0)) d k =
        if 0 ≤ k ∧ k < (n : Int) then elements.getD k.toNat 0 else d k := by
    intro n
    induction n with
    | zero =>
      simp only [List.range_zero, List.foldl_nil]
      rw [if_neg]
      push_cast
      omega
    | succ m ih =>
      rw [List.range_succ, List.foldl_append]
      simp only [List.foldl_cons, List.foldl_nil]
      by_cases hk : k = (m : Int)
      · rw [hk, write_same, if_pos (by push_cast; omega)]
        simp
      · rw [write_other _ _ _ _ hk, ih]
        by_cases hc : 0 ≤ k ∧ k < (m : Int)
        · rw [if_pos hc, if_pos (by push_cast; omega)]
        · rw [if_neg hc, if_neg (by push_cast; omega)]
  unfold array_to_heap_copy
  rw [key]
  by_cases hc : 0 ≤ k ∧ k < size
  · rw [if_pos hc, if_pos (by omega)]
  · rw [if_neg hc, if_neg (by omega)]

theorem array_to_heap_loop_last_index (n : Nat) : ∀ h : heap,
    (array_to_heap_loop n h).last_index = h.last_index := by
  induction n with
  | zero => intro h; rfl
  | succ m ih => intro h; simp only [array_to_heap_loop]; rw [ih, heapify_last_index]

theorem array_to_heap_loop_max_size (n : Nat) : ∀ h : heap,
    (array_to_heap_loop n h).max_size = h.max_size := by
  induction n with
  | zero => intro h; rfl
  | succ m ih => intro h; simp only [array_to_heap_loop]; rw [ih, heapify_max_size]

theorem array_to_heap_loop_heap_type (n : Nat) : ∀ h : heap,
    (array_to_heap_loop n h).heap_type = h.heap_type := by
  induction n with
  | zero => intro h; rfl
  | succ m ih => intro h; simp only [array_to_heap_loop]; rw [ih, heapify_heap_type]

theorem array_to_heap_loop_perm (n : Nat) : ∀ h : heap,
    (array_to_heap_loop n h).live.Perm h.live := by
  induction n with
  | zero => intro h; exact List.Perm.refl _
  | succ m ih =>
    intro h
    simp only [array_to_heap_loop]
    exact (ih _).trans (heapify_perm h m (by omega))

/-- The invariant of the second loop of `array_to_heap`: with `n` iterations left,
heap order holds at every live edge whose parent is at least `n`. -/
theorem array_to_heap_loop_order (n : Nat) : ∀ h : heap, ord_from h n →
    ord_from (array_to_heap_loop n h) 0 := by
  induction n with
  | zero => intro h ho; exact ho
  | succ m ih =>
    intro h ho
    simp only [array_to_heap_loop]
    apply ih
    apply heapify_order (m : Int) h m (by omega)
    · intro k hk1 hk2 hlo hne
      exact ho k hk1 hk2 (by push_cast; omega)
    · intro hm hlo
      have := parent_spec (m : Int) hm
      omega

theorem array_to_heap_live_copy (xs : List Int) (mem : Int → Int) :
    (idx ((xs.length : Int) - 1)).map (array_to_heap_copy xs xs.length mem) = xs := by
  apply List.ext_getElem
  · simp [idx]
  · intro n h1 h2
    simp only [idx, List.map_map, List.getElem_map, List.getElem_range, Function.comp_apply]
    rw [array_to_heap_copy_apply, if_pos (by omega)]
    simp [List.getD_eq_getElem?_getD, h2]

/-! ## The invariant of the double heap -/

theorem ordered_of_empty (h : heap) (hn : h.last_index < 1) : h.ordered := by
  intro k hk1 hk2
  omega

theorem live_of_empty (h : heap) (hn : h.last_index < 0) : h.live = [] := by
  unfold heap.live
  have : (h.last_index + 1).toNat = 0 := by omega
  rw [this]
  rfl

theorem dh_inv_construct (C : Int) (hC : 0 ≤ C) (mem_min mem_max : Int → Int) :
    dh_inv C (construct_double_heap C mem_min mem_max) := by
  have h1 : C.tdiv 2 = C / 2 := Int.tdiv_eq_ediv hC (by omega)
  have h2 : C.tmod 2 = C % 2 := Int.tmod_eq_emod hC (by omega)
  unfold construct_double_heap construct_heap
  simp only [h1, h2]
  refine ⟨rfl, le_refl _, hC, rfl, rfl, ?_, rfl, by simp, by simp, ?_, ?_, ?_⟩
  · simp only
    split <;> omega
  · exact ordered_of_empty _ (by simp)
  · exact ordered_of_empty _ (by simp)
  · intro x hx
    rw [live_of_empty _ (by simp)] at hx
    simp at hx

theorem dh_inv_insert (C : Int) (dh : double_heap) (key : Int) (hinv : dh_inv C dh) :
    dh_inv C (double_heap_insert dh key) := by
  obtain ⟨hms, hc0, hcC, hmt, hxt, hmc, hxc, htot, hbal, hmo, hxo, hsep⟩ := hinv
  unfold double_heap_insert
  simp only [heap_top_snd]
  by_cases hlt : dh.elements_count < dh.max_size
  · rw [if_pos hlt]
    by_cases h0 : dh.elements_count = 0
    · rw [if_pos h0]
      have hf : dh.min_heap.last_index ≠ dh.min_heap.max_size - 1 := by omega
      have hn : -1 ≤ dh.min_heap.last_index := by omega
      refine ⟨hms, ?_, ?_, ?_, hxt, ?_, hxc, ?_, ?_, ?_, hxo, ?_⟩
      · dsimp only; omega
      · dsimp only; omega
      · dsimp only; rw [heap_insert_heap_type]; exact hmt
      · dsimp only; rw [heap_insert_max_size]; exact hmc
      · dsimp only
        rw [heap_insert_last_index _ _ hf]; omega
      · dsimp only
        rw [heap_insert_last_index _ _ hf]; omega
      · exact heap_insert_ordered _ _ hn hmo
      · intro x hx
        dsimp only at hx
        rw [live_of_empty _ (by omega)] at hx
        simp at hx
    · rw [if_neg h0, Int.tmod_eq_emod hc0 (by omega)]
      by_cases hev : dh.elements_count % 2 = 0
      · rw [if_pos hev]
        have hxn : 0 ≤ dh.max_heap.last_index := by omega
        have hf : dh.min_heap.last_index ≠ dh.min_heap.max_size - 1 := by omega
        have hn : -1 ≤ dh.min_heap.last_index := by omega
        rw [heap_top_fst _ (by omega)]
        by_cases hk : key ≥ dh.max_heap.data 0
        · rw [if_pos hk]
          refine ⟨hms, ?_, ?_, ?_, hxt, ?_, hxc, ?_, ?_, ?_, hxo, ?_⟩
          · dsimp only; omega
          · dsimp only; omega
          · dsimp only; rw [heap_insert_heap_type]; exact hmt
          · dsimp only; rw [heap_insert_max_size]; exact hmc
          · dsimp only
            rw [heap_insert_last_index _ _ hf]; omega
          · dsimp only
            rw [heap_insert_last_index _ _ hf]; omega
          · exact heap_insert_ordered _ _ hn hmo
          · intro x hx y hy
            dsimp only at hx hy
            rcases (heap_insert_mem _ _ hn hf y).1 hy with hy | hy
            · exact hsep x hx y hy
            · have := le_root_of_max _ hxt hxo x hx
              omega
        · rw [if_neg hk]
          have hel : (heap_extract dh.max_heap).2.last_index = dh.max_heap.last_index - 1 :=
            heap_extract_last_index _
          have hes : (heap_extract dh.max_heap).2.max_size = dh.max_heap.max_size :=
            heap_extract_max_size _
          have hf2 : (heap_extract dh.max_heap).2.last_index ≠
              (heap_extract dh.max_heap).2.max_size - 1 := by omega
          have hn2 : -1 ≤ (heap_extract dh.max_heap).2.last_index := by omega
          refine ⟨hms, ?_, ?_, ?_, ?_, ?_, ?_, ?_, ?_, ?_, ?_, ?_⟩
          · dsimp only; omega
          · dsimp only; omega
          · dsimp only; rw [heap_insert_heap_type]; exact hmt
          · dsimp only; rw [heap_insert_heap_type, heap_extract_heap_type]; exact hxt
          · dsimp only; rw [heap_insert_max_size]; exact hmc
          · dsimp only; rw [heap_insert_max_size, hes]; exact hxc
          · dsimp only
            rw [heap_insert_last_index _ _ hf, heap_insert_last_index _ _ hf2]; omega
          · dsimp only
            rw [heap_insert_last_index _ _ hf, heap_insert_last_index _ _ hf2]; omega
          · exact heap_insert_ordered _ _ hn hmo
          · exact heap_insert_ordered _ _ hn2 (heap_extract_ordered _ hxo)
          · intro x hx y hy
            dsimp only at hx hy
            rw [heap_extract_fst] at hy
            have hroot := root_mem_live _ hxn
            rcases (heap_insert_mem _ _ hn hf y).1 hy with hy | hy
            · rcases (heap_insert_mem _ _ hn2 hf2 x).1 hx with hx | hx
              · exact hsep x (heap_extract_mem _ hxn x hx) y hy
              · have := hsep _ hroot y hy
                omega
            · rcases (heap_insert_mem _ _ hn2 hf2 x).1 hx with hx | hx
              · rw [hy]
                exact le_root_of_max _ hxt hxo x (heap_extract_mem _ hxn x hx)
              · omega
      · rw [if_neg hev]
        have hmn : 0 ≤ dh.min_heap.last_index := by omega
        have hf : dh.max_heap.last_index ≠ dh.max_heap.max_size - 1 := by omega
        have hn : -1 ≤ dh.max_heap.last_index := by omega
        rw [heap_top_fst _ (by omega)]
        by_cases hk : key ≤ dh.min_heap.data 0
        · rw [if_pos hk]
          refine ⟨hms, ?_, ?_, hmt, ?_, hmc, ?_, ?_, ?_, hmo, ?_, ?_⟩
          · dsimp only; omega
          · dsimp only; omega
          · dsimp only; rw [heap_insert_heap_type]; exact hxt
          · dsimp only; rw [heap_insert_max_size]; exact hxc
          · dsimp only
            rw [heap_insert_last_index _ _ hf]; omega
          · dsimp only
            rw [heap_insert_last_index _ _ hf]; omega
          · exact heap_insert_ordered _ _ hn hxo
          · intro x hx y hy
            dsimp only at hx hy
            rcases (heap_insert_mem _ _ hn hf x).1 hx with hx | hx
            · exact hsep x hx y hy
            · have := root_le_of_min _ hmt hmo y hy
              omega
        · rw [if_neg hk]
          have hel : (heap_extract dh.min_heap).2.last_index = dh.min_heap.last_index - 1 :=
            heap_extract_last_index _
          have hes : (heap_extract dh.min_heap).2.max_size = dh.min_heap.max_size :=
            heap_extract_max_size _
          have hf2 : (heap_extract dh.min_heap).2.last_index ≠
              (heap_extract dh.min_heap).2.max_size - 1 := by omega
          have hn2 : -1 ≤ (heap_extract dh.min_heap).2.last_index := by omega
          refine ⟨hms, ?_, ?_, ?_, ?_, ?_, ?_, ?_, ?_, ?_, ?_, ?_⟩
          · dsimp only; omega
          · dsimp only; omega
          · dsimp only; rw [heap_insert_heap_type, heap_extract_heap_type]; exact hmt
          · dsimp only; rw [heap_insert_heap_type]; exact hxt
          · dsimp only; rw [heap_insert_max_size, hes]; exact hmc
          · dsimp only; rw [heap_insert_max_size]; exact hxc
          · dsimp only
            rw [heap_insert_last_index _ _ hf, heap_insert_last_index _ _ hf2]; omega
          · dsimp only
            rw [heap_insert_last_index _ _ hf, heap_insert_last_index _ _ hf2]; omega
          · exact heap_insert_ordered _ _ hn2 (heap_extract_ordered _ hmo)
          · exact heap_insert_ordered _ _ hn hxo
          · intro x hx y hy
            dsimp only at hx hy
            rw [heap_extract_fst] at hx
            have hroot := root_mem_live _ hmn
            rcases (heap_insert_mem _ _ hn hf x).1 hx with hx | hx
            · rcases (heap_insert_mem _ _ hn2 hf2 y).1 hy with hy | hy
              · exact hsep x hx y (heap_extract_mem _ hmn y hy)
              · have := hsep x hx _ hroot
                omega
            · rcases (heap_insert_mem _ _ hn2 hf2 y).1 hy with hy | hy
              · rw [hx]
                exact root_le_of_min _ hmt hmo y (heap_extract_mem _ hmn y hy)
              · omega
  · rw [if_neg hlt]
    exact ⟨hms, hc0, hcC, hmt, hxt, hmc, hxc, htot, hbal, hmo, hxo, hsep⟩

theorem dh_inv_insert_all (C : Int) (ks : List Int) : ∀ dh : double_heap, dh_inv C dh →
    dh_inv C (insert_all dh ks) := by
  induction ks with
  | nil => intro dh h; exact h
  | cons k ks ih =>
    intro dh h
    exact ih _ (dh_inv_insert C dh k h)

theorem ordered_of_forall_idx (h : heap)
    (hall : ∀ k ∈ idx h.last_index, 0 < k →
      h.compare_function (h.data (parent k)) (h.data k) = true) : h.ordered := by
  intro k hk1 hk2
  exact hall k ((mem_idx _ _).2 ⟨by omega, hk2⟩) hk1

/-- The example of the specification: after inserting 5, then 2, then 8, then 1 the
median is 5 each time (no `heap_extract` on a heap of two or more elements occurs). -/
theorem median_after_5_2_8_1 :
    (double_heap_median (insert_all (construct_double_heap 4 zero_mem zero_mem) [5])).1 = 5 ∧
    (double_heap_median (insert_all (construct_double_heap 4 zero_mem zero_mem) [5, 2])).1 = 5 ∧
    (double_heap_median
      (insert_all (construct_double_heap 4 zero_mem zero_mem) [5, 2, 8])).1 = 5 ∧
    (double_heap_median
      (insert_all (construct_double_heap 4 zero_mem zero_mem) [5, 2, 8, 1])).1 = 5 := by
  decide

/-! ## The claims -/

/-- C1 (the code departs from the claim): on a double heap of capacity 4, after
`double_heap_insert` of 1, 2, 3, 4 in this order `double_heap_median` returns 2, while
the upper median of 1, 2, 3, 4 is 3.  The fourth insertion extracts the root of the
min-heap holding 2 and 3; `heap_extract` copies the cell before the last one into
the root, so 3 is dropped and 2 stays. -/
theorem C1_median_after_1_2_3_4 :
    (double_heap_median
      (insert_all (construct_double_heap 4 zero_mem zero_mem) [1, 2, 3, 4])).1 = 2 ∧
    upper_median [1, 2, 3, 4] = 3 ∧
    (insert_all (construct_double_heap 4 zero_mem zero_mem) [1, 2, 3]).min_heap.live = [2, 3] ∧
    (insert_all (construct_double_heap 4 zero_mem zero_mem) [1, 2, 3, 4]).min_heap.live = [2, 4] ∧
    (insert_all (construct_double_heap 4 zero_mem zero_mem) [1, 2, 3, 4]).max_heap.live = [2, 1] := by
  decide

/-- C2: in every state reached from `construct_double_heap C`, `0 ≤ C`, by a sequence
of `double_heap_insert` calls, every live element of the max-heap is at most every
live element of the min-heap; when both heaps are non-empty the top of the max-heap
is at most the top of the min-heap. -/
theorem C2_ordering_invariant (C : Int) (hC : 0 ≤ C) (mem_min mem_max : Int → Int)
    (ks : List Int) :
    (∀ x ∈ (insert_all (construct_double_heap C mem_min mem_max) ks).max_heap.live,
      ∀ y ∈ (insert_all (construct_double_heap C mem_min mem_max) ks).min_heap.live, x ≤ y) ∧
    (0 ≤ (insert_all (construct_double_heap C mem_min mem_max) ks).max_heap.last_index →
      0 ≤ (insert_all (construct_double_heap C mem_min mem_max) ks).min_heap.last_index →
      (heap_top (insert_all (construct_double_heap C mem_min mem_max) ks).max_heap).1 ≤
        (heap_top (insert_all (construct_double_heap C mem_min mem_max) ks).min_heap).1) := by
  have hinv := dh_inv_insert_all C ks _ (dh_inv_construct C hC mem_min mem_max)
  refine ⟨hinv.sep, fun hx hn => ?_⟩
  rw [heap_top_fst _ (by omega), heap_top_fst _ (by omega)]
  exact hinv.sep _ (root_mem_live _ hx) _ (root_mem_live _ hn)

theorem C2_ordering_invariant_witness :
    (0 : Int) ≤ 4 ∧
    (heap_top (insert_all (construct_double_heap 4 zero_mem zero_mem) [5, 2, 8, 1]).max_heap).1 ≤
      (heap_top (insert_all (construct_double_heap 4 zero_mem zero_mem) [5, 2, 8, 1]).min_heap).1 :=
  ⟨by decide,
    (C2_ordering_invariant 4 (by decide) zero_mem zero_mem [5, 2, 8, 1]).2
      (by decide) (by decide)⟩

/-- C3: in every state reached from `construct_double_heap C`, `0 ≤ C`, by a sequence
of `double_heap_insert` calls, `elements_count` is the sum of the counts of the two
heaps; the counts are equal when `elements_count` is even and the min-heap has one
more element when it is odd. -/
theorem C3_balance_invariants (C : Int) (hC : 0 ≤ C) (mem_min mem_max : Int → Int)
    (ks : List Int) :
    (insert_all (construct_double_heap C mem_min mem_max) ks).elements_count =
      (insert_all (construct_double_heap C mem_min mem_max) ks).min_heap.count +
        (insert_all (construct_double_heap C mem_min mem_max) ks).max_heap.count ∧
    (Even (insert_all (construct_double_heap C mem_min mem_max) ks).elements_count →
      (insert_all (construct_double_heap C mem_min mem_max) ks).min_heap.count =
        (insert_all (construct_double_heap C mem_min mem_max) ks).max_heap.count) ∧
    (Odd (insert_all (construct_double_heap C mem_min mem_max) ks).elements_count →
      (insert_all (construct_double_heap C mem_min mem_max) ks).min_heap.count =
        (insert_all (construct_double_heap C mem_min mem_max) ks).max_heap.count + 1) := by
  have hinv := dh_inv_insert_all C ks _ (dh_inv_construct C hC mem_min mem_max)
  have htot := hinv.total
  have hbal := hinv.balance
  unfold heap.count
  refine ⟨htot, fun he => ?_, fun ho => ?_⟩
  · rw [Int.even_iff] at he
    omega
  · rw [Int.odd_iff] at ho
    omega

theorem C3_balance_invariants_witness :
    (0 : Int) ≤ 4 ∧
    (insert_all (construct_double_heap 4 zero_mem zero_mem) [5, 2, 8]).elements_count = 3 ∧
    (insert_all (construct_double_heap 4 zero_mem zero_mem) [5, 2, 8]).min_heap.count =
      (insert_all (construct_double_heap 4 zero_mem zero_mem) [5, 2, 8]).max_heap.count + 1 :=
  ⟨by decide, by decide,
    (C3_balance_invariants 4 (by decide) zero_mem zero_mem [5, 2, 8]).2.2 (by decide)⟩

/-- C4 (the code departs from the claim): a min-heap of capacity 2 built by
`heap_insert` of 1 then 2 holds 1, 2 and is in heap order; `heap_extract` returns 1
and leaves one live element, which is 1 again and not 2.  On the heap 1, 2, 3 it
returns 1 and leaves 2, 2: the last live element 3 is lost and 2 is duplicated. -/
theorem C4_heap_extract_drops_last :
    (heap_insert (heap_insert (construct_heap 2 heap_type.min_heap zero_mem) 1) 2).live
      = [1, 2] ∧
    (heap_extract
      (heap_insert (heap_insert (construct_heap 2 heap_type.min_heap zero_mem) 1) 2)).1 = 1 ∧
    (heap_extract
      (heap_insert (heap_insert (construct_heap 2 heap_type.min_heap zero_mem) 1) 2)).2.live
      = [1] ∧
    (heap_extract (heap_of_list [1, 2, 3] 3 heap_type.min_heap)).1 = 1 ∧
    (heap_extract (heap_of_list [1, 2, 3] 3 heap_type.min_heap)).2.live = [2, 2] := by
  decide

/-- C5 (the code departs from the claim): `array_to_heap` of 1, 2 followed by two
`heap_extract` calls returns 1, 1 for a min-heap (sorted ascending is 1, 2) and
2, 2 for a max-heap (sorted descending is 2, 1). -/
theorem C5_round_trip_1_2 :
    (extract_n 2 (array_to_heap [1, 2] 2 heap_type.min_heap zero_mem)).1 = [1, 1] ∧
    (extract_n 2 (array_to_heap [1, 2] 2 heap_type.max_heap zero_mem)).1 = [2, 2] ∧
    (extract_n 3 (array_to_heap [3, 1, 2] 3 heap_type.min_heap zero_mem)).1 = [1, 3, 3] := by
  decide

/-- C6: for a heap with `-1 ≤ last_index < max_size` in heap order, the heap after
`heap_insert` of any key (accepted, or rejected because the heap is full) is in heap
order, and when the heap is non-empty the heap after `heap_extract` is in heap
order. -/
theorem C6_heap_order_preserved (h : heap) (key : Int) (hwf : h.wf) (ho : h.ordered) :
    (heap_insert h key).ordered ∧ (0 ≤ h.last_index → (heap_extract h).2.ordered) :=
  ⟨heap_insert_ordered h key hwf.1 ho, fun _ => heap_extract_ordered h ho⟩

theorem C6_heap_order_preserved_witness :
    (heap_of_list [1, 3, 2] 4 heap_type.min_heap).wf ∧
    (heap_of_list [1, 3, 2] 4 heap_type.min_heap).ordered ∧
    (heap_insert (heap_of_list [1, 3, 2] 4 heap_type.min_heap) 0).ordered ∧
    (heap_extract (heap_of_list [1, 3, 2] 4 heap_type.min_heap)).2.ordered :=
  have hwf : (heap_of_list [1, 3, 2] 4 heap_type.min_heap).wf := by
    unfold heap.wf; decide
  have ho : (heap_of_list [1, 3, 2] 4 heap_type.min_heap).ordered :=
    ordered_of_forall_idx _ (by decide)
  ⟨hwf, ho, (C6_heap_order_preserved _ 0 hwf ho).1,
    (C6_heap_order_preserved _ 0 hwf ho).2 (by decide)⟩

/-- C7: for a non-empty heap in heap order, `heap_top` returns `data[0]`, leaves the
heap as it is, and the value returned is at most every live element for a min-heap
and at least every live element for a max-heap. -/
theorem C7_heap_top_extreme (h : heap) (hn : 0 ≤ h.last_index) (ho : h.ordered) :
    (heap_top h).1 = h.data 0 ∧ (heap_top h).2 = h ∧
    (h.heap_type = heap_type.min_heap → ∀ x ∈ h.live, (heap_top h).1 ≤ x) ∧
    (h.heap_type = heap_type.max_heap → ∀ x ∈ h.live, x ≤ (heap_top h).1) := by
  have ht : (heap_top h).1 = h.data 0 := heap_top_fst h (by omega)
  refine ⟨ht, heap_top_snd h, fun hmin x hx => ?_, fun hmax x hx => ?_⟩
  · rw [ht]; exact root_le_of_min h hmin ho x hx
  · rw [ht]; exact le_root_of_max h hmax ho x hx

theorem C7_heap_top_extreme_witness :
    (0 : Int) ≤ (heap_of_list [9, 4, 7] 3 heap_type.max_heap).last_index ∧
    (heap_of_list [9, 4, 7] 3 heap_type.max_heap).ordered ∧
    (heap_top (heap_of_list [9, 4, 7] 3 heap_type.max_heap)).1 = 9 ∧
    (4 : Int) ≤ (heap_top (heap_of_list [9, 4, 7] 3 heap_type.max_heap)).1 :=
  have ho : (heap_of_list [9, 4, 7] 3 heap_type.max_heap).ordered :=
    ordered_of_forall_idx _ (by decide)
  ⟨by decide, ho, by decide,
    (C7_heap_top_extreme _ (by decide) ho).2.2.2 (by decide) 4 (by decide)⟩

/-- C8: for a heap with `0 ≤ count < max_size` and any key, after `heap_insert` the
count is one more, `max_size` and the polarity are unchanged, and the multiset of
live elements is the previous one plus one occurrence of the key. -/
theorem C8_heap_insert_success (h : heap) (key : Int) (hn : 0 ≤ h.count)
    (hlt : h.count < h.max_size) :
    (heap_insert h key).count = h.count + 1 ∧
    (heap_insert h key).max_size = h.max_size ∧
    (heap_insert h key).heap_type = h.heap_type ∧
    ((heap_insert h key).live : Multiset Int) = Multiset.cons key (h.live : Multiset Int) := by
  unfold heap.count at *
  have hf : h.last_index ≠ h.max_size - 1 := by omega
  refine ⟨?_, heap_insert_max_size h key, heap_insert_heap_type h key, ?_⟩
  · rw [heap_insert_last_index h key hf]
  · rw [Multiset.cons_coe, Multiset.coe_eq_coe]
    exact (heap_insert_perm h key (by omega) hf).trans (List.perm_append_singleton _ _)

theorem C8_heap_insert_success_witness :
    (0 : Int) ≤ (heap_of_list [1, 3, 2] 4 heap_type.min_heap).count ∧
    (heap_of_list [1, 3, 2] 4 heap_type.min_heap).count <
      (heap_of_list [1, 3, 2] 4 heap_type.min_heap).max_size ∧
    (heap_insert (heap_of_list [1, 3, 2] 4 heap_type.min_heap) 0).count = 3 + 1 ∧
    (heap_insert (heap_of_list [1, 3, 2] 4 heap_type.min_heap) 0).live = [0, 1, 2, 3] :=
  ⟨by decide, by decide,
    (C8_heap_insert_success (heap_of_list [1, 3, 2] 4 heap_type.min_heap) 0
      (by decide) (by decide)).1,
    by decide⟩

/-- C9: for every list `xs` (the empty one too) and either polarity,
`array_to_heap(xs, |xs|, type)` gives a heap of that polarity with `max_size = |xs|`
and count `|xs|`, whose live elements are a permutation of `xs`, in heap order. -/
theorem C9_array_to_heap_valid (xs : List Int) (type : heap_type) (mem : Int → Int) :
    (array_to_heap xs xs.length type mem).max_size = xs.length ∧
    (array_to_heap xs xs.length type mem).count = xs.length ∧
    (array_to_heap xs xs.length type mem).heap_type = type ∧
    (array_to_heap xs xs.length type mem).live.Perm xs ∧
    (array_to_heap xs xs.length type mem).ordered := by
  unfold array_to_heap construct_heap heap.count
  dsimp only
  refine ⟨?_, ?_, ?_, ?_, ?_⟩
  · rw [array_to_heap_loop_max_size]
  · rw [array_to_heap_loop_last_index]; dsimp only; omega
  · rw [array_to_heap_loop_heap_type]
  · refine (array_to_heap_loop_perm _ _).trans ?_
    rw [live_eq_map]
    dsimp only
    rw [array_to_heap_live_copy]
  · rw [ordered_iff_ord_from]
    apply array_to_heap_loop_order
    intro k hk1 hk2 hlo
    dsimp only at hk2 hlo
    have hp := parent_spec k hk1
    have hd : ((xs.length : Int) - 1).tdiv 2 = ((xs.length : Int) - 1) / 2 :=
      Int.tdiv_eq_ediv (by omega) (by omega)
    rw [hd] at hlo
    omega

/-- C10: when `elements_count = max_size`, `double_heap_insert` returns the double
heap it was given (both heaps, `max_size` and `elements_count`); in every state
reached from `construct_double_heap C`, `0 ≤ C`, `elements_count ≤ max_size = C`. -/
theorem C10_double_heap_capacity :
    (∀ (dh : double_heap) (key : Int), dh.elements_count = dh.max_size →
      double_heap_insert dh key = dh) ∧
    (∀ (C : Int), 0 ≤ C → ∀ (mem_min mem_max : Int → Int) (ks : List Int),
      (insert_all (construct_double_heap C mem_min mem_max) ks).max_size = C ∧
      (insert_all (construct_double_heap C mem_min mem_max) ks).elements_count ≤
        (insert_all (construct_double_heap C mem_min mem_max) ks).max_size) := by
  constructor
  · intro dh key hfull
    unfold double_heap_insert
    dsimp only
    rw [if_neg (by omega)]
  · intro C hC mem_min mem_max ks
    have hinv := dh_inv_insert_all C ks _ (dh_inv_construct C hC mem_min mem_max)
    exact ⟨hinv.max_size_eq, by rw [hinv.max_size_eq]; exact hinv.count_le⟩

theorem C10_double_heap_capacity_witness :
    (insert_all (construct_double_heap 2 zero_mem zero_mem) [5, 2]).elements_count =
      (insert_all (construct_double_heap 2 zero_mem zero_mem) [5, 2]).max_size ∧
    double_heap_insert (insert_all (construct_double_heap 2 zero_mem zero_mem) [5, 2]) 8 =
      insert_all (construct_double_heap 2 zero_mem zero_mem) [5, 2] ∧
    (0 : Int) ≤ 2 ∧
    (insert_all (construct_double_heap 2 zero_mem zero_mem) [5, 2, 8]).elements_count ≤
      (insert_all (construct_double_heap 2 zero_mem zero_mem) [5, 2, 8]).max_size :=
  ⟨by decide, C10_double_heap_capacity.1 _ 8 (by decide), by decide,
    (C10_double_heap_capacity.2 2 (by decide) zero_mem zero_mem [5, 2, 8]).2⟩

/-! ## Sequences of insertions -/

theorem heap_insert_last_index_lt (h : heap) (key : Int) (hlt : h.last_index < h.max_size) :
    (heap_insert h key).last_index < (heap_insert h key).max_size := by
  rw [heap_insert_max_size]
  by_cases hf : h.last_index = h.max_size - 1
  · rw [heap_insert_full h key hf]; exact hlt
  · rw [heap_insert_last_index h key hf]; omega

theorem heap_insert_all_bound (ks : List Int) : ∀ h : heap, h.last_index < h.max_size →
    (heap_insert_all h ks).last_index < h.max_size := by
  induction ks with
  | nil => intro h hlt; exact hlt
  | cons k ks ih =>
    intro h hlt
    have := ih (heap_insert h k) (heap_insert_last_index_lt h k hlt)
    rw [heap_insert_max_size] at this
    exact this

theorem double_heap_insert_max_size (dh : double_heap) (key : Int) :
    (double_heap_insert dh key).max_size = dh.max_size := by
  unfold double_heap_insert
  dsimp only
  split_ifs <;> rfl

theorem double_heap_insert_elements_count (dh : double_heap) (key : Int) :
    (double_heap_insert dh key).elements_count =
      if dh.elements_count < dh.max_size then dh.elements_count + 1
      else dh.elements_count := by
  unfold double_heap_insert
  dsimp only
  split_ifs <;> rfl

theorem insert_all_elements_count (ks : List Int) : ∀ dh : double_heap,
    dh.elements_count ≤ dh.max_size →
    (insert_all dh ks).elements_count =
      min (dh.elements_count + (ks.length : Int)) dh.max_size := by
  induction ks with
  | nil =>
    intro dh hle
    simp only [insert_all, List.foldl_nil, List.length_nil]
    omega
  | cons k ks ih =>
    intro dh hle
    have hm := double_heap_insert_max_size dh k
    have hc := double_heap_insert_elements_count dh k
    have := ih (double_heap_insert dh k) (by rw [hm, hc]; split <;> omega)
    simp only [insert_all, List.foldl_cons, List.length_cons] at this ⊢
    rw [this, hm, hc]
    push_cast
    split <;> omega

/-! ## The claims, continued -/

/-- C11: when `last_index = max_size - 1`, `heap_insert` returns the heap it was given
(count and buffer); starting from `construct_heap C type`, `0 ≤ C`, the count after
any sequence of `heap_insert` calls is at most `C`. -/
theorem C11_heap_capacity :
    (∀ (h : heap) (key : Int), h.last_index = h.max_size - 1 → heap_insert h key = h) ∧
    (∀ (C : Int), 0 ≤ C → ∀ (type : heap_type) (mem : Int → Int) (ks : List Int),
      (heap_insert_all (construct_heap C type mem) ks).count ≤ C) := by
  constructor
  · intro h key hf
    exact heap_insert_full h key hf
  · intro C hC type mem ks
    have := heap_insert_all_bound ks (construct_heap C type mem)
      (by unfold construct_heap; dsimp only; omega)
    unfold heap.count
    unfold construct_heap at this ⊢
    dsimp only at this
    omega

theorem C11_heap_capacity_witness :
    (heap_insert_all (construct_heap 2 heap_type.min_heap zero_mem) [5, 2]).last_index =
      (heap_insert_all (construct_heap 2 heap_type.min_heap zero_mem) [5, 2]).max_size - 1 ∧
    heap_insert (heap_insert_all (construct_heap 2 heap_type.min_heap zero_mem) [5, 2]) 8 =
      heap_insert_all (construct_heap 2 heap_type.min_heap zero_mem) [5, 2] ∧
    (0 : Int) ≤ 2 ∧
    (heap_insert_all (construct_heap 2 heap_type.min_heap zero_mem) [5, 2, 8]).count ≤ 2 :=
  ⟨by decide, C11_heap_capacity.1 _ 8 (by decide), by decide,
    C11_heap_capacity.2 2 (by decide) heap_type.min_heap zero_mem [5, 2, 8]⟩

/-- C12 (the code departs from the claim): `heap_extract` on the empty heap made by
`construct_heap(2, min_heap)` leaves `last_index = -2`, that is a count of -1, and
the heap is no longer recognised as empty: `last_index` is not -1 any more.  The same
happens on a heap emptied by a regular extraction. -/
theorem C12_heap_extract_on_empty :
    (construct_heap 2 heap_type.min_heap zero_mem).last_index = -1 ∧
    (heap_extract (construct_heap 2 heap_type.min_heap zero_mem)).2.last_index = -2 ∧
    (heap_extract (construct_heap 2 heap_type.min_heap zero_mem)).2.count = -1 ∧
    (heap_extract
      (heap_insert (construct_heap 2 heap_type.min_heap zero_mem) 7)).2.last_index = -1 ∧
    (heap_extract (heap_extract
      (heap_insert (construct_heap 2 heap_type.min_heap zero_mem) 7)).2).2.last_index = -2 := by
  decide

/-- C13: on an empty heap `heap_top` returns -1 and the heap it was given; on a double
heap with `elements_count = 0`, `double_heap_median` returns -1 and the double heap it
was given; a second call on the state left gives the same result. -/
theorem C13_empty_queries :
    (∀ h : heap, h.last_index = -1 →
      heap_top h = (-1, h) ∧ heap_top (heap_top h).2 = heap_top h) ∧
    (∀ dh : double_heap, dh.elements_count = 0 →
      double_heap_median dh = (-1, dh) ∧
      double_heap_median (double_heap_median dh).2 = double_heap_median dh) := by
  constructor
  · intro h he
    have : heap_top h = (-1, h) := by unfold heap_top; rw [if_pos he]
    exact ⟨this, by rw [this]; exact this⟩
  · intro dh he
    have : double_heap_median dh = (-1, dh) := by unfold double_heap_median; rw [if_pos he]
    exact ⟨this, by rw [this]; exact this⟩

theorem C13_empty_queries_witness :
    (construct_heap 2 heap_type.max_heap zero_mem).last_index = -1 ∧
    heap_top (construct_heap 2 heap_type.max_heap zero_mem) =
      (-1, construct_heap 2 heap_type.max_heap zero_mem) ∧
    (construct_double_heap 2 zero_mem zero_mem).elements_count = 0 ∧
    double_heap_median (construct_double_heap 2 zero_mem zero_mem) =
      (-1, construct_double_heap 2 zero_mem zero_mem) :=
  ⟨by decide, (C13_empty_queries.1 _ (by decide)).1, by decide,
    (C13_empty_queries.2 _ (by decide)).1⟩

/-- C14: after `k` calls of `double_heap_insert` (any keys) on
`construct_double_heap C`, `0 ≤ C`, `double_heap_items_count` returns `min k C`; a call
with `elements_count < max_size` increases the count by exactly 1. -/
theorem C14_count_contract :
    (∀ (C : Int), 0 ≤ C → ∀ (mem_min mem_max : Int → Int) (ks : List Int),
      double_heap_items_count (insert_all (construct_double_heap C mem_min mem_max) ks) =
        min (ks.length : Int) C) ∧
    (∀ (dh : double_heap) (key : Int), dh.elements_count < dh.max_size →
      double_heap_items_count (double_heap_insert dh key) =
        double_heap_items_count dh + 1) := by
  constructor
  · intro C hC mem_min mem_max ks
    unfold double_heap_items_count
    rw [insert_all_elements_count ks _ (by unfold construct_double_heap; dsimp only; exact hC)]
    unfold construct_double_heap
    dsimp only
    rw [zero_add]
  · intro dh key hlt
    unfold double_heap_items_count
    rw [double_heap_insert_elements_count, if_pos hlt]

theorem C14_count_contract_witness :
    (0 : Int) ≤ 2 ∧
    double_heap_items_count
      (insert_all (construct_double_heap 2 zero_mem zero_mem) [5, 2, 8]) = min 3 2 ∧
    (construct_double_heap 2 zero_mem zero_mem).elements_count <
      (construct_double_heap 2 zero_mem zero_mem).max_size ∧
    double_heap_items_count
      (double_heap_insert (construct_double_heap 2 zero_mem zero_mem) 5) =
      double_heap_items_count (construct_double_heap 2 zero_mem zero_mem) + 1 :=
  ⟨by decide, C14_count_contract.1 2 (by decide) zero_mem zero_mem [5, 2, 8], by decide,
    C14_count_contract.2 _ 5 (by decide)⟩

/-- C15: for `0 ≤ C`, `construct_double_heap C` has `max_size = C`, `elements_count = 0`,
an empty min-heap of capacity `⌈C/2⌉` and an empty max-heap of capacity `⌊C/2⌋`; the two
capacities add up to `C`. -/
theorem C15_capacity_split (C : Int) (hC : 0 ≤ C) (mem_min mem_max : Int → Int) :
    (construct_double_heap C mem_min mem_max).max_size = C ∧
    (construct_double_heap C mem_min mem_max).elements_count = 0 ∧
    (construct_double_heap C mem_min mem_max).min_heap.heap_type = heap_type.min_heap ∧
    (construct_double_heap C mem_min mem_max).min_heap.count = 0 ∧
    (construct_double_heap C mem_min mem_max).min_heap.max_size = Int.ceil ((C : ℚ) / 2) ∧
    (construct_double_heap C mem_min mem_max).max_heap.heap_type = heap_type.max_heap ∧
    (construct_double_heap C mem_min mem_max).max_heap.count = 0 ∧
    (construct_double_heap C mem_min mem_max).max_heap.max_size = Int.floor ((C : ℚ) / 2) ∧
    (construct_double_heap C mem_min mem_max).min_heap.max_size +
      (construct_double_heap C mem_min mem_max).max_heap.max_size = C := by
  have h1 : C.tdiv 2 = C / 2 := Int.tdiv_eq_ediv hC (by omega)
  have h2 : C.tmod 2 = C % 2 := Int.tmod_eq_emod hC (by omega)
  unfold construct_double_heap construct_heap heap.count
  simp only [h1, h2]
  have hsplit : C = 2 * (C / 2) + C % 2 := by omega
  have hsplitq : (C : ℚ) = 2 * ((C / 2 : Int) : ℚ) + ((C % 2 : Int) : ℚ) := by
    exact_mod_cast hsplit
  refine ⟨trivial, trivial, trivial, by norm_num, ?_, trivial, by norm_num, ?_, ?_⟩
  · symm
    rw [Int.ceil_eq_iff]
    by_cases hr : C % 2 = 0
    · rw [if_pos hr]
      rw [hr] at hsplitq
      constructor <;> push_cast at hsplitq ⊢ <;> linarith
    · rw [if_neg hr]
      have hr1 : C % 2 = 1 := by omega
      rw [hr1] at hsplitq
      constructor <;> push_cast at hsplitq ⊢ <;> linarith
  · symm
    rw [Int.floor_eq_iff]
    have hr : C % 2 = 0 ∨ C % 2 = 1 := by omega
    rcases hr with hr | hr <;> rw [hr] at hsplitq <;>
      constructor <;> push_cast at hsplitq ⊢ <;> linarith
  · split <;> omega

theorem C15_capacity_split_witness :
    (0 : Int) ≤ 5 ∧
    (construct_double_heap 5 zero_mem zero_mem).min_heap.max_size = 3 ∧
    (construct_double_heap 5 zero_mem zero_mem).max_heap.max_size = 2 ∧
    (construct_double_heap 5 zero_mem zero_mem).min_heap.max_size +
      (construct_double_heap 5 zero_mem zero_mem).max_heap.max_size = 5 :=
  ⟨by decide, by decide, by decide,
    (C15_capacity_split 5 (by decide) zero_mem zero_mem).2.2.2.2.2.2.2.2⟩

/-- C16 (the claim as stated fails): for the negative capacity -3, `construct_heap` and
`construct_double_heap` return a structure, and its `max_size` is -3. -/
theorem C16_negative_capacity_counterexample :
    (-3 : Int) < 0 ∧
    (construct_heap (-3) heap_type.min_heap zero_mem).max_size = -3 ∧
    (construct_heap (-3) heap_type.min_heap zero_mem).last_index = -1 ∧
    (construct_double_heap (-3) zero_mem zero_mem).max_size = -3 ∧
    (construct_double_heap (-3) zero_mem zero_mem).elements_count = 0 := by
  decide

/-- C16 (amended): for every capacity below 0 the constructors do not fail:
`construct_heap` returns an empty heap whose `max_size` is that capacity,
`construct_double_heap` returns a double heap with that `max_size` and
`elements_count = 0`, and every `double_heap_insert` on it is turned down and leaves
it as it is. -/
theorem C16_negative_capacity_accepted (capacity : Int) (hneg : capacity < 0)
    (type : heap_type) (mem mem_min mem_max : Int → Int) :
    (construct_heap capacity type mem).max_size = capacity ∧
    (construct_heap capacity type mem).last_index = -1 ∧
    (construct_double_heap capacity mem_min mem_max).max_size = capacity ∧
    (construct_double_heap capacity mem_min mem_max).elements_count = 0 ∧
    (∀ key : Int, double_heap_insert (construct_double_heap capacity mem_min mem_max) key =
      construct_double_heap capacity mem_min mem_max) := by
  refine ⟨rfl, rfl, rfl, rfl, fun key => ?_⟩
  unfold double_heap_insert
  dsimp only
  rw [if_neg]
  unfold construct_double_heap
  dsimp only
  omega

theorem C16_negative_capacity_accepted_witness :
    (-3 : Int) < 0 ∧
    (construct_double_heap (-3) zero_mem zero_mem).max_size = -3 ∧
    double_heap_insert (construct_double_heap (-3) zero_mem zero_mem) 5 =
      construct_double_heap (-3) zero_mem zero_mem :=
  ⟨by decide, by decide,
    (C16_negative_capacity_accepted (-3) (by decide) heap_type.min_heap
      zero_mem zero_mem zero_mem).2.2.2.2 5⟩

/-- C17 (the code departs from the claim): on a double heap of capacity 4, after
`double_heap_insert` of 1, 2, 3, 4 the min-heap holds 2, 4 and the max-heap holds 2, 1:
the key 3 is lost and the key 2 is held twice. -/
theorem C17_elements_after_1_2_3_4 :
    (insert_all (construct_double_heap 4 zero_mem zero_mem) [1, 2, 3, 4]).min_heap.live
      = [2, 4] ∧
    (insert_all (construct_double_heap 4 zero_mem zero_mem) [1, 2, 3, 4]).max_heap.live
      = [2, 1] ∧
    ¬ ((insert_all (construct_double_heap 4 zero_mem zero_mem) [1, 2, 3, 4]).min_heap.live ++
        (insert_all (construct_double_heap 4 zero_mem zero_mem) [1, 2, 3, 4]).max_heap.live).Perm
      [1, 2, 3, 4] := by
  decide

/-! ## Successive extractions -/

theorem extract_n_length (n : Nat) : ∀ h : heap, (extract_n n h).1.length = n := by
  induction n with
  | zero => intro h; rfl
  | succ m ih => intro h; simp only [extract_n, List.length_cons, ih]

/-- Each value returned by successive extractions compares well with the values
returned after it, and all of them were live in the heap at the start. -/
theorem extract_n_pairwise (n : Nat) : ∀ h : heap, h.ordered →
    (n : Int) ≤ h.last_index + 1 →
    (extract_n n h).1.Pairwise (fun a b => h.compare_function a b = true) ∧
    ∀ x ∈ (extract_n n h).1, x ∈ h.live := by
  induction n with
  | zero =>
    intro h _ _
    exact ⟨List.Pairwise.nil, fun x hx => by simp [extract_n] at hx⟩
  | succ m ih =>
    intro h ho hn
    have hne : 0 ≤ h.last_index := by push_cast at hn; omega
    obtain ⟨hp, hmem⟩ := ih (heap_extract h).2 (heap_extract_ordered h ho)
      (by rw [heap_extract_last_index]; push_cast at hn; omega)
    rw [cmp_congr h _ (heap_extract_heap_type h)] at hp
    have hsub : ∀ x ∈ (extract_n m (heap_extract h).2).1, x ∈ h.live :=
      fun x hx => heap_extract_mem h hne x (hmem x hx)
    simp only [extract_n]
    constructor
    · rw [List.pairwise_cons]
      refine ⟨fun x hx => ?_, hp⟩
      obtain ⟨k, hk0, hk1, rfl⟩ := (mem_live h x).1 (hsub x hx)
      rw [heap_extract_fst]
      exact root_extreme h ho k hk0 hk1
    · intro x hx
      rcases List.mem_cons.1 hx with hx | hx
      · rw [hx, heap_extract_fst]
        exact root_mem_live h hne
      · exact hsub x hx

/-- C19: for a heap in heap order with `n` live elements, the values returned by `n`
successive `heap_extract` calls are non-decreasing for a min-heap and non-increasing
for a max-heap. -/
theorem C19_extraction_monotone (h : heap) (n : Nat) (hn : h.count = (n : Int))
    (ho : h.ordered) :
    (extract_n n h).1.length = n ∧
    (h.heap_type = heap_type.min_heap → (extract_n n h).1.Sorted (fun a b => a ≤ b)) ∧
    (h.heap_type = heap_type.max_heap → (extract_n n h).1.Sorted (fun a b => a ≥ b)) := by
  unfold heap.count at hn
  have hp := (extract_n_pairwise n h ho (by omega)).1
  refine ⟨extract_n_length n h, fun hmin => ?_, fun hmax => ?_⟩
  · exact hp.imp (fun {a b} hab => (cmp_min h hmin a b).1 hab)
  · exact hp.imp (fun {a b} hab => (cmp_max h hmax a b).1 hab)

theorem C19_extraction_monotone_witness :
    (heap_of_list [1, 3, 2] 3 heap_type.min_heap).count = ((3 : Nat) : Int) ∧
    (heap_of_list [1, 3, 2] 3 heap_type.min_heap).ordered ∧
    (extract_n 3 (heap_of_list [1, 3, 2] 3 heap_type.min_heap)).1 = [1, 3, 3] ∧
    (extract_n 3 (heap_of_list [1, 3, 2] 3 heap_type.min_heap)).1.Sorted (fun a b => a ≤ b) :=
  have ho : (heap_of_list [1, 3, 2] 3 heap_type.min_heap).ordered :=
    ordered_of_forall_idx _ (by decide)
  ⟨by decide, ho, by decide,
    (C19_extraction_monotone _ 3 (by decide) ho).2.1 (by decide)⟩

/-- C20: in every state reached from `construct_double_heap C`, `0 ≤ C`, the max-heap
is non-empty when `elements_count` is even and positive, the min-heap is non-empty when
`elements_count` is odd, and every sub-heap that the next `double_heap_insert` hands to
`heap_top` or `heap_extract` is non-empty. -/
theorem C20_no_empty_access (C : Int) (hC : 0 ≤ C) (mem_min mem_max : Int → Int)
    (ks : List Int) (key : Int) :
    (0 < (insert_all (construct_double_heap C mem_min mem_max) ks).elements_count →
      Even (insert_all (construct_double_heap C mem_min mem_max) ks).elements_count →
      0 ≤ (insert_all (construct_double_heap C mem_min mem_max) ks).max_heap.last_index) ∧
    (Odd (insert_all (construct_double_heap C mem_min mem_max) ks).elements_count →
      0 ≤ (insert_all (construct_double_heap C mem_min mem_max) ks).min_heap.last_index) ∧
    (∀ g ∈ double_heap_insert_accesses
        (insert_all (construct_double_heap C mem_min mem_max) ks) key,
      0 ≤ g.last_index) := by
  have hinv := dh_inv_insert_all C ks _ (dh_inv_construct C hC mem_min mem_max)
  generalize insert_all (construct_double_heap C mem_min mem_max) ks = dh at hinv
  have htot := hinv.total
  have hbal := hinv.balance
  have hc0 := hinv.count_nonneg
  refine ⟨fun hpos he => ?_, fun ho => ?_, fun g hg => ?_⟩
  · rw [Int.even_iff] at he
    omega
  · rw [Int.odd_iff] at ho
    omega
  · unfold double_heap_insert_accesses at hg
    simp only [heap_top_snd, Int.tmod_eq_emod hc0 (by omega : (0 : Int) ≤ 2)] at hg
    split_ifs at hg with h1 h2 h3 h4 h5 <;> simp at hg <;> subst hg <;> omega

theorem C20_no_empty_access_witness :
    (0 : Int) ≤ 4 ∧
    (double_heap_insert_accesses
      (insert_all (construct_double_heap 4 zero_mem zero_mem) [5, 2, 8]) 9).length = 2 ∧
    (0 : Int) ≤
      (insert_all (construct_double_heap 4 zero_mem zero_mem) [5, 2, 8]).min_heap.last_index :=
  ⟨by decide, by decide,
    (C20_no_empty_access 4 (by decide) zero_mem zero_mem [5, 2, 8] 9).2.1 (by decide)⟩

/-! ## Subtrees -/

theorem parent_left (q : Int) (hq : 0 ≤ q) : parent (left q) = q := by
  have := parent_spec (left q) (by unfold left; omega)
  unfold left at this ⊢
  omega

theorem parent_right (q : Int) (hq : 0 ≤ q) : parent (right q) = q := by
  have := parent_spec (right q) (by unfold right; omega)
  unfold right at this ⊢
  omega

theorem in_subtree_ge (i k : Int) (hi : 0 ≤ i) (hs : in_subtree i k) : i ≤ k := by
  induction hs with
  | root => exact le_refl _
  | to_left q _ ih => unfold left; omega
  | to_right q _ ih => unfold right; omega

theorem in_subtree_trans (i j k : Int) (hij : in_subtree i j) (hjk : in_subtree j k) :
    in_subtree i k := by
  induction hjk with
  | root => exact hij
  | to_left q _ ih => exact in_subtree.to_left q ih
  | to_right q _ ih => exact in_subtree.to_right q ih

theorem in_subtree_cases (i k : Int) (hs : in_subtree i k) :
    k = i ∨ in_subtree (left i) k ∨ in_subtree (right i) k := by
  induction hs with
  | root => exact Or.inl rfl
  | to_left q _ ih =>
    rcases ih with h | h | h
    · rw [h]; exact Or.inr (Or.inl in_subtree.root)
    · exact Or.inr (Or.inl (in_subtree.to_left q h))
    · exact Or.inr (Or.inr (in_subtree.to_left q h))
  | to_right q _ ih =>
    rcases ih with h | h | h
    · rw [h]; exact Or.inr (Or.inr in_subtree.root)
    · exact Or.inr (Or.inl (in_subtree.to_right q h))
    · exact Or.inr (Or.inr (in_subtree.to_right q h))

theorem in_subtree_child (i c : Int) (hc : c = left i ∨ c = right i) : in_subtree i c := by
  rcases hc with hc | hc
  · rw [hc]; exact in_subtree.to_left i in_subtree.root
  · rw [hc]; exact in_subtree.to_right i in_subtree.root

theorem not_in_subtree_of_lt (i k : Int) (hi : 0 ≤ i) (hk : k < i) : ¬ in_subtree i k := by
  intro hs
  have := in_subtree_ge i k hi hs
  omega

/-- In a subtree in heap order the root compares well with every live cell of the
subtree. -/
theorem subtree_root_extreme (h : heap) (i : Int) (hi : 0 ≤ i) (ho : subtree_ordered h i)
    (k : Int) (hs : in_subtree i k) (hk : k ≤ h.last_index) :
    h.compare_function (h.data i) (h.data k) = true := by
  induction hs with
  | root => exact cmp_refl h _
  | to_left q hq ih =>
    have hq0 := in_subtree_ge i q hi hq
    have hedge := ho (left q) (by unfold left; omega) hk
      (by rw [parent_left q (by omega)]; exact hq)
    rw [parent_left q (by omega)] at hedge
    exact cmp_trans h _ _ _ (ih (by unfold left at hk; omega)) hedge
  | to_right q hq ih =>
    have hq0 := in_subtree_ge i q hi hq
    have hedge := ho (right q) (by unfold right; omega) hk
      (by rw [parent_right q (by omega)]; exact hq)
    rw [parent_right q (by omega)] at hedge
    exact cmp_trans h _ _ _ (ih (by unfold right at hk; omega)) hedge

/-! ## Sift-down on a subtree -/

/-- Sift-down, for a set `R` of parent indices closed under taking children: when heap
order holds at every edge with parent in `R` but those below `i`, and the parent of `i`
compares well with the children of `i`, then after `heapify` at `i` heap order holds at
every edge with parent in `R`. -/
theorem heapifyAux_order_in (R : Int → Prop)
    (hR : ∀ p c : Int, 0 ≤ p → R p → (c = left p ∨ c = right p) → R c) (fuel : Nat) :
    ∀ (h : heap) (i : Int), 0 ≤ i → (h.last_index - i + 1).toNat ≤ fuel →
    (∀ k : Int, 0 < k → k ≤ h.last_index → R (parent k) → parent k ≠ i →
      h.compare_function (h.data (parent k)) (h.data k) = true) →
    (0 < i → R (parent i) → ∀ c : Int, (c = left i ∨ c = right i) → c ≤ h.last_index →
      h.compare_function (h.data (parent i)) (h.data c) = true) →
    ∀ k : Int, 0 < k → k ≤ h.last_index → R (parent k) →
      (heapifyAux fuel h i).compare_function ((heapifyAux fuel h i).data (parent k))
        ((heapifyAux fuel h i).data k) = true := by
  have hbase : ∀ (h : heap) (i : Int), heapify_selection h i = i →
      (∀ k : Int, 0 < k → k ≤ h.last_index → R (parent k) → parent k ≠ i →
        h.compare_function (h.data (parent k)) (h.data k) = true) →
      ∀ k : Int, 0 < k → k ≤ h.last_index → R (parent k) →
        h.compare_function (h.data (parent k)) (h.data k) = true := by
    intro h i hs hex k hk1 hk2 hRk
    by_cases hp : parent k = i
    · have hps := parent_spec k hk1
      have hsp := heapify_selection_spec h i
      rw [hs] at hsp
      rw [hp]
      rcases hps with hps | hps
      · have hk : k = left i := by unfold left; omega
        rw [hk]; apply hsp.2.1; rw [← hk]; exact hk2
      · have hk : k = right i := by unfold right; omega
        rw [hk]; apply hsp.2.2; rw [← hk]; exact hk2
    · exact hex k hk1 hk2 hRk hp
  induction fuel with
  | zero =>
    intro h i hi hf hex _
    exact hbase h i (heapify_selection_of_last h i hi (by omega)) hex
  | succ n ih =>
    intro h i hi hf hex hpar
    rw [heapifyAux_succ]
    by_cases hs : heapify_selection h i = i
    · rw [if_neg (by simpa using hs)]
      exact hbase h i hs hex
    · rw [if_pos hs]
      have hgt := heapify_selection_gt h i hi hs
      have hsp := heapify_selection_spec h i
      have hch : heapify_selection h i = left i ∨ heapify_selection h i = right i := by
        rcases heapify_selection_cases h i with h0 | h0
        · exact absurd h0 hs
        · exact h0.1
      generalize heapify_selection h i = c at hs hgt hsp hch
      have hpc : parent c = i := by
        have := parent_spec c (by omega)
        unfold left right at hch
        omega
      refine ih { h with data := swap_elements h.data i c } c ?_ ?_ ?_ ?_
      · exact hgt.1.le.trans' hi
      · simp only; omega
      · intro k hk1 hk2 hRk hpk
        have hps := parent_spec k hk1
        show h.compare_function (swap_elements h.data i c (parent k))
          (swap_elements h.data i c k) = true
        by_cases hpi : parent k = i
        · rw [hpi, swap_elements_fst]
          by_cases hkc : k = c
          · rw [hkc, swap_elements_snd]; exact hsp.1
          · rw [swap_elements_other _ _ _ _ (by omega) hkc]
            rcases hps with hps | hps
            · have hk : k = left i := by unfold left; omega
              rw [hk]; apply hsp.2.1; rw [← hk]; exact hk2
            · have hk : k = right i := by unfold right; omega
              rw [hk]; apply hsp.2.2; rw [← hk]; exact hk2
        · rw [swap_elements_other _ _ _ _ hpi hpk]
          by_cases hki : k = i
          · rw [hki, swap_elements_fst]
            rw [hki] at hk1 hRk
            exact hpar hk1 hRk c hch hgt.2
          · have hkc : k ≠ c := by
              intro hkc
              rw [hkc] at hpi
              exact hpi hpc
            rw [swap_elements_other _ _ _ _ hki hkc]
            exact hex k hk1 hk2 hRk hpi
      · intro hc0 hRc g hg hgl
        show h.compare_function (swap_elements h.data i c (parent c))
          (swap_elements h.data i c g) = true
        have hg0 : c < g := by unfold left right at hg; omega
        have hpg : parent g = c := by
          have := parent_spec g (by omega)
          unfold left right at hg
          omega
        rw [hpc, swap_elements_fst, swap_elements_other _ _ _ _ (by omega) (by omega)]
        rw [hpc] at hRc
        have := hex g (by omega) hgl (by rw [hpg]; exact hR i c hi hRc hch)
          (by rw [hpg]; exact hs)
        rw [hpg] at this
        exact this

/-- Sift-down at `i` leaves every cell outside the subtree rooted at `i` as it is. -/
theorem heapifyAux_frame (fuel : Nat) : ∀ (h : heap) (i : Int), 0 ≤ i →
    ∀ k : Int, ¬ in_subtree i k → (heapifyAux fuel h i).data k = h.data k := by
  induction fuel with
  | zero => intro h i _ k _; rfl
  | succ n ih =>
    intro h i hi k hk
    rw [heapifyAux_succ]
    by_cases hs : heapify_selection h i = i
    · rw [if_neg (by simpa using hs)]
    · rw [if_pos hs]
      have hgt := heapify_selection_gt h i hi hs
      have hch : heapify_selection h i = left i ∨ heapify_selection h i = right i := by
        rcases heapify_selection_cases h i with h0 | h0
        · exact absurd h0 hs
        · exact h0.1
      have hic := in_subtree_child i _ hch
      rw [ih _ _ (by omega) k (fun hck => hk (in_subtree_trans i _ k hic hck))]
      show swap_elements h.data i (heapify_selection h i) k = h.data k
      apply swap_elements_other
      · intro hki; exact hk (hki ▸ in_subtree.root)
      · intro hkc; exact hk (hkc ▸ hic)

/-- Sift-down at `i` moves the live cells of the subtree rooted at `i` around inside
that subtree: every value held there before is still held there. -/
theorem heapifyAux_subtree_values (fuel : Nat) : ∀ (h : heap) (i : Int), 0 ≤ i →
    ∀ k : Int, in_subtree i k → k ≤ h.last_index →
    ∃ k2 : Int, in_subtree i k2 ∧ k2 ≤ h.last_index ∧
      (heapifyAux fuel h i).data k2 = h.data k := by
  induction fuel with
  | zero => intro h i _ k hk hkl; exact ⟨k, hk, hkl, rfl⟩
  | succ n ih =>
    intro h i hi k hk hkl
    rw [heapifyAux_succ]
    by_cases hs : heapify_selection h i = i
    · rw [if_neg (by simpa using hs)]
      exact ⟨k, hk, hkl, rfl⟩
    · rw [if_pos hs]
      have hgt := heapify_selection_gt h i hi hs
      have hch : heapify_selection h i = left i ∨ heapify_selection h i = right i := by
        rcases heapify_selection_cases h i with h0 | h0
        · exact absurd h0 hs
        · exact h0.1
      have hic := in_subtree_child i _ hch
      generalize heapify_selection h i = c at hs hgt hch hic
      by_cases hki : k = i
      · obtain ⟨k2, h1, h2, h3⟩ := ih { h with data := swap_elements h.data i c } c
          (by omega) c in_subtree.root hgt.2
        refine ⟨k2, in_subtree_trans i c k2 hic h1, h2, ?_⟩
        rw [h3, hki]
        exact swap_elements_snd _ _ _
      · by_cases hkc : in_subtree c k
        · obtain ⟨k2, h1, h2, h3⟩ := ih { h with data := swap_elements h.data i c } c
            (by omega) k hkc hkl
          by_cases hkc2 : k = c
          · refine ⟨i, in_subtree.root, by omega, ?_⟩
            rw [heapifyAux_frame n _ c (by omega) i (not_in_subtree_of_lt c i (by omega) hgt.1)]
            rw [hkc2]
            exact swap_elements_fst _ _ _
          · refine ⟨k2, in_subtree_trans i c k2 hic h1, h2, ?_⟩
            rw [h3]
            exact swap_elements_other _ _ _ _ hki hkc2
        · refine ⟨k, hk, hkl, ?_⟩
          rw [heapifyAux_frame n _ c (by omega) k hkc]
          exact swap_elements_other _ _ _ _ hki (fun hkc2 => hkc (hkc2 ▸ in_subtree.root))

/-- After sift-down at `i`, the cell `i` holds what the cell `selection` held. -/
theorem heapify_data_root (h : heap) (i : Int) (hi : 0 ≤ i) :
    (heapify h i).data i = h.data (heapify_selection h i) := by
  rw [heapify_unfold h i hi]
  by_cases hs : heapify_selection h i = i
  · rw [if_neg (by simpa using hs), hs]
  · rw [if_pos hs]
    have hgt := heapify_selection_gt h i hi hs
    unfold heapify
    rw [heapifyAux_frame _ _ _ (by omega) i
      (not_in_subtree_of_lt _ i (by omega) hgt.1)]
    exact swap_elements_fst _ _ _

theorem heapify_frame (h : heap) (i : Int) (hi : 0 ≤ i) (k : Int) (hk : ¬ in_subtree i k) :
    (heapify h i).data k = h.data k :=
  heapifyAux_frame _ h i hi k hk

theorem heapify_subtree_values (h : heap) (i : Int) (hi : 0 ≤ i) (k : Int)
    (hk : in_subtree i k) (hkl : k ≤ h.last_index) :
    ∃ k2 : Int, in_subtree i k2 ∧ k2 ≤ h.last_index ∧ (heapify h i).data k2 = h.data k :=
  heapifyAux_subtree_values _ h i hi k hk hkl

theorem heapify_subtree_ordered (h : heap) (i : Int) (hi : 0 ≤ i)
    (hl : subtree_ordered h (left i)) (hr : subtree_ordered h (right i)) :
    subtree_ordered (heapify h i) i := by
  intro k hk1 hk2 hsub
  rw [heapify_last_index] at hk2
  refine heapifyAux_order_in (in_subtree i)
    (fun p c _ hp hc => in_subtree_trans i p c hp (in_subtree_child p c hc))
    _ h i hi (le_refl _) ?_ ?_ k hk1 hk2 hsub
  · intro k hk1 hk2 hsub hne
    rcases in_subtree_cases i _ hsub with h0 | h0 | h0
    · exact absurd h0 hne
    · exact hl k hk1 hk2 h0
    · exact hr k hk1 hk2 h0
  · intro hpos hsub
    have := in_subtree_ge i _ hi hsub
    have := parent_spec i hpos
    omega

/-- The index picked by `heapify` when both children are live and both compare well
against the cell of `i`: the right child when its cell compares well against the
cell of the left child, the left child otherwise. -/
theorem heapify_selection_both (h : heap) (i : Int)
    (hll : left i ≤ h.last_index) (hrl : right i ≤ h.last_index)
    (hcl : h.compare_function (h.data (left i)) (h.data i) = true) :
    heapify_selection h i =
      if h.compare_function (h.data (right i)) (h.data (left i)) = true then right i
      else left i := by
  unfold heapify_selection
  simp [hll, hrl, hcl]

/-! ## The claims, continued -/

/-- C18: for an index `i ≥ 0` (live, as in the claim, or not) whose two child subtrees
are in heap order, after
`heapify(heap, i)` the subtree rooted at `i` is in heap order; the cell `i` compares
well with every live cell of the subtree, as it is afterwards and as it was before;
the multiset of live elements, the count, the capacity and the polarity are unchanged;
every cell outside the subtree is unchanged; and when both children are live and both
compare well against the cell of `i`, the swap is with a child whose cell compares well
with the cells of both children. -/
theorem C18_heapify_correct (h : heap) (i : Int) (hi0 : 0 ≤ i)
    (hl : subtree_ordered h (left i)) (hr : subtree_ordered h (right i)) :
    subtree_ordered (heapify h i) i ∧
    (∀ k : Int, in_subtree i k → k ≤ h.last_index →
      h.compare_function ((heapify h i).data i) ((heapify h i).data k) = true ∧
      h.compare_function ((heapify h i).data i) (h.data k) = true) ∧
    ((heapify h i).live : Multiset Int) = (h.live : Multiset Int) ∧
    (heapify h i).last_index = h.last_index ∧
    (heapify h i).max_size = h.max_size ∧
    (heapify h i).heap_type = h.heap_type ∧
    (∀ k : Int, ¬ in_subtree i k → (heapify h i).data k = h.data k) ∧
    (left i ≤ h.last_index → right i ≤ h.last_index →
      h.compare_function (h.data (left i)) (h.data i) = true →
      h.compare_function (h.data (right i)) (h.data i) = true →
      ∃ c : Int, (c = left i ∨ c = right i) ∧
        h.compare_function (h.data c) (h.data (left i)) = true ∧
        h.compare_function (h.data c) (h.data (right i)) = true ∧
        heapify h i = heapify { h with data := swap_elements h.data i c } c) := by
  have hord := heapify_subtree_ordered h i hi0 hl hr
  have hnew : ∀ k : Int, in_subtree i k → k ≤ h.last_index →
      h.compare_function ((heapify h i).data i) ((heapify h i).data k) = true := by
    intro k hk hkl
    have := subtree_root_extreme (heapify h i) i hi0 hord k hk
      (by rw [heapify_last_index]; exact hkl)
    rw [cmp_congr h _ (heapify_heap_type h i)] at this
    exact this
  refine ⟨hord, fun k hk hkl => ⟨hnew k hk hkl, ?_⟩, ?_, heapify_last_index h i,
    heapify_max_size h i, heapify_heap_type h i, fun k hk => heapify_frame h i hi0 k hk, ?_⟩
  · obtain ⟨k2, h1, h2, h3⟩ := heapify_subtree_values h i hi0 k hk hkl
    rw [← h3]
    exact hnew k2 h1 h2
  · rw [Multiset.coe_eq_coe]
    exact heapify_perm h i hi0
  · intro hll hrl hcl _
    have hsel := heapify_selection_both h i hll hrl hcl
    have hunf := heapify_unfold h i hi0
    by_cases hc : h.compare_function (h.data (right i)) (h.data (left i)) = true
    · rw [if_pos hc] at hsel
      rw [hsel, if_pos (by unfold right; omega)] at hunf
      exact ⟨right i, Or.inr rfl, hc, cmp_refl h _, hunf⟩
    · rw [if_neg hc] at hsel
      rw [hsel, if_pos (by unfold left; omega)] at hunf
      refine ⟨left i, Or.inl rfl, cmp_refl h _, ?_, hunf⟩
      apply cmp_total
      simpa using hc

theorem C18_heapify_correct_witness :
    (0 : Int) ≤ (heap_of_list [5, 1, 2, 3, 4] 5 heap_type.min_heap).last_index ∧
    subtree_ordered (heap_of_list [5, 1, 2, 3, 4] 5 heap_type.min_heap) (left 0) ∧
    subtree_ordered (heap_of_list [5, 1, 2, 3, 4] 5 heap_type.min_heap) (right 0) ∧
    (heapify (heap_of_list [5, 1, 2, 3, 4] 5 heap_type.min_heap) 0).live = [1, 3, 2, 5, 4] ∧
    subtree_ordered (heapify (heap_of_list [5, 1, 2, 3, 4] 5 heap_type.min_heap) 0) 0 :=
  have hlast : (heap_of_list [5, 1, 2, 3, 4] 5 heap_type.min_heap).last_index = 4 := by
    decide
  have hl : subtree_ordered (heap_of_list [5, 1, 2, 3, 4] 5 heap_type.min_heap) (left 0) := by
    intro k hk1 hk2 hsub
    have h1 := in_subtree_ge (left 0) (parent k) (by decide) hsub
    have hp := parent_spec k hk1
    have h0 : left 0 = 1 := by decide
    rw [h0] at h1
    rw [hlast] at hk2
    have hk : k = 3 ∨ k = 4 := by omega
    rcases hk with rfl | rfl <;> decide
  have hr : subtree_ordered (heap_of_list [5, 1, 2, 3, 4] 5 heap_type.min_heap) (right 0) := by
    intro k hk1 hk2 hsub
    have h1 := in_subtree_ge (right 0) (parent k) (by decide) hsub
    have hp := parent_spec k hk1
    have h0 : right 0 = 2 := by decide
    rw [h0] at h1
    rw [hlast] at hk2
    omega
  ⟨by decide, hl, hr, by decide,
    (C18_heapify_correct _ 0 (by decide) hl hr).1⟩

/-! ## The repair procedures end -/

theorem heapify_steps_succ (fuel : Nat) (h : heap) (i : Int) :
    heapify_steps (fuel + 1) h i =
      if heapify_selection h i ≠ i then
        heapify_steps fuel { h with data := swap_elements h.data i (heapify_selection h i) }
          (heapify_selection h i)
      else some h := rfl

/-- With `last_index - i + 2` calls allowed or more, the recursion of `heapify` at
`i ≥ 0` ends, and its result is the one of the model `heapify`. -/
theorem heapify_steps_eq (fuel : Nat) : ∀ (h : heap) (i : Int), 0 ≤ i →
    (h.last_index - i + 1).toNat + 1 ≤ fuel →
    heapify_steps fuel h i = some (heapify h i) := by
  induction fuel with
  | zero => intro h i _ hf; omega
  | succ n ih =>
    intro h i hi hf
    rw [heapify_steps_succ, heapify_unfold h i hi]
    by_cases hs : heapify_selection h i = i
    · rw [if_neg (by simpa using hs), if_neg (by simpa using hs)]
    · rw [if_pos hs, if_pos hs]
      have hgt := heapify_selection_gt h i hi hs
      exact ih _ _ (by omega) (by simp only; omega)

theorem heap_insert_loop_steps_succ (fuel : Nat) (h : heap) (i : Int) :
    heap_insert_loop_steps (fuel + 1) h i =
      if i > 0 && h.compare_function (h.data i) (h.data (parent i)) then
        heap_insert_loop_steps fuel
          { h with data := swap_elements h.data i (parent i) } (parent i)
      else some h := rfl

/-- With `i + 1` evaluations of the condition allowed or more, the loop of
`heap_insert` started at `i` ends, and its result is the one of the model. -/
theorem heap_insert_loop_steps_eq (fuel : Nat) : ∀ (h : heap) (i : Int),
    i.toNat + 1 ≤ fuel →
    heap_insert_loop_steps fuel h i = some (heap_insert_loop i.toNat h i) := by
  induction fuel with
  | zero => intro h i hf; omega
  | succ n ih =>
    intro h i hf
    rw [heap_insert_loop_steps_succ, heap_insert_loop_unfold]
    split
    · next hc =>
      simp only [Bool.and_eq_true, decide_eq_true_eq] at hc
      have hp := parent_spec i hc.1
      exact ih _ _ (by omega)
    · rfl

/-- What `heap_insert` does on a heap with `0 ≤ count < max_size`: the overflow test
fails, the count goes up by one and the key joins the live elements. -/
theorem heap_insert_accepts (g : heap) (k : Int) (h0 : -1 ≤ g.last_index)
    (h1 : g.last_index + 1 < g.max_size) :
    0 ≤ g.count ∧ g.count < g.max_size ∧ g.last_index ≠ g.max_size - 1 ∧
    (heap_insert g k).count = g.count + 1 ∧
    ((heap_insert g k).live : Multiset Int) = Multiset.cons k (g.live : Multiset Int) := by
  have hf : g.last_index ≠ g.max_size - 1 := by omega
  unfold heap.count
  refine ⟨by omega, h1, hf, by rw [heap_insert_last_index g k hf], ?_⟩
  rw [Multiset.cons_coe, Multiset.coe_eq_coe]
  exact (heap_insert_perm g k h0 hf).trans (List.perm_append_singleton _ _)

/-! ## The claims, continued -/

/-- C21: in every state reached from `construct_double_heap C`, `0 ≤ C`, every
`heap_insert` made by the next `double_heap_insert` is on a sub-heap with
`0 ≤ count < max_size`: the overflow test of `heap_insert` fails, the count of that
sub-heap goes up by one and the key handed over joins its live elements. -/
theorem C21_no_sub_heap_overflow (C : Int) (hC : 0 ≤ C) (mem_min mem_max : Int → Int)
    (ks : List Int) (key : Int) :
    ∀ p ∈ double_heap_insert_inserts
        (insert_all (construct_double_heap C mem_min mem_max) ks) key,
      0 ≤ p.1.count ∧ p.1.count < p.1.max_size ∧ p.1.last_index ≠ p.1.max_size - 1 ∧
      (heap_insert p.1 p.2).count = p.1.count + 1 ∧
      ((heap_insert p.1 p.2).live : Multiset Int) =
        Multiset.cons p.2 (p.1.live : Multiset Int) := by
  have hinv := dh_inv_insert_all C ks _ (dh_inv_construct C hC mem_min mem_max)
  generalize insert_all (construct_double_heap C mem_min mem_max) ks = dh at hinv
  have htot := hinv.total
  have hbal := hinv.balance
  have hc0 := hinv.count_nonneg
  have hms := hinv.max_size_eq
  have hmc := hinv.min_cap
  have hxc := hinv.max_cap
  have hel1 := heap_extract_last_index dh.max_heap
  have hes1 := heap_extract_max_size dh.max_heap
  have hel2 := heap_extract_last_index dh.min_heap
  have hes2 := heap_extract_max_size dh.min_heap
  intro p hp
  unfold double_heap_insert_inserts at hp
  simp only [heap_top_snd, Int.tmod_eq_emod hc0 (by omega : (0 : Int) ≤ 2)] at hp
  split_ifs at hp with h1 h2 h3 h4 h5
  · rw [List.mem_singleton] at hp
    subst hp
    refine heap_insert_accepts _ _ ?_ ?_ <;> dsimp only <;> omega
  · rw [List.mem_singleton] at hp
    subst hp
    refine heap_insert_accepts _ _ ?_ ?_ <;> dsimp only <;> omega
  · simp only [List.mem_cons, List.mem_singleton, List.mem_nil_iff, or_false] at hp
    rcases hp with hp | hp <;> subst hp <;>
      refine heap_insert_accepts _ _ ?_ ?_ <;> dsimp only <;> omega
  · rw [List.mem_singleton] at hp
    subst hp
    refine heap_insert_accepts _ _ ?_ ?_ <;> dsimp only <;> omega
  · simp only [List.mem_cons, List.mem_singleton, List.mem_nil_iff, or_false] at hp
    rcases hp with hp | hp <;> subst hp <;>
      refine heap_insert_accepts _ _ ?_ ?_ <;> dsimp only <;> omega
  · simp at hp

theorem C21_no_sub_heap_overflow_witness :
    (0 : Int) ≤ 4 ∧
    (double_heap_insert_inserts
      (insert_all (construct_double_heap 4 zero_mem zero_mem) [5, 2, 8]) 9).length = 2 ∧
    (insert_all (construct_double_heap 4 zero_mem zero_mem) [5, 2, 8]).max_heap.count <
      (insert_all (construct_double_heap 4 zero_mem zero_mem) [5, 2, 8]).max_heap.max_size :=
  ⟨by decide, by decide,
    (C21_no_sub_heap_overflow 4 (by decide) zero_mem zero_mem [5, 2, 8] 9
      ((insert_all (construct_double_heap 4 zero_mem zero_mem) [5, 2, 8]).max_heap,
        (heap_extract
          (insert_all (construct_double_heap 4 zero_mem zero_mem) [5, 2, 8]).min_heap).1)
      (List.mem_cons_self _ _)).2.1⟩

/-- C22: for every heap and index `i ≥ 0`, the recursion of `heapify(heap, i)` ends
within `last_index - i + 2` calls and each recursive call is on a larger index that
is at most `last_index`; for every heap with `count < max_size`, the loop of
`heap_insert` ends within `last_index + 2` evaluations of its condition, and each
iteration moves to an index that is smaller and at least 0.  (The bound
`last_index < max_size` of the claim is not needed.) -/
theorem C22_termination :
    (∀ (h : heap) (i : Int), 0 ≤ i → ∀ fuel : Nat,
      (h.last_index - i + 1).toNat + 1 ≤ fuel →
      heapify_steps fuel h i = some (heapify h i)) ∧
    (∀ (h : heap) (i : Int), 0 ≤ i → heapify_selection h i ≠ i →
      i < heapify_selection h i ∧ heapify_selection h i ≤ h.last_index) ∧
    (∀ (h : heap) (key : Int), h.count < h.max_size → ∀ fuel : Nat,
      (h.last_index + 1).toNat + 1 ≤ fuel →
      heap_insert_loop_steps fuel
        { h with last_index := h.last_index + 1,
                 data := write h.data (h.last_index + 1) key } (h.last_index + 1) =
        some (heap_insert h key)) ∧
    (∀ (h : heap) (i : Int),
      (decide (i > 0) && h.compare_function (h.data i) (h.data (parent i))) = true →
      0 ≤ parent i ∧ parent i < i) := by
  refine ⟨fun h i hi fuel hf => heapify_steps_eq fuel h i hi hf,
    fun h i hi hs => heapify_selection_gt h i hi hs, fun h key hlt fuel hf => ?_,
    fun h i hc => ?_⟩
  · unfold heap.count at hlt
    rw [heap_insert_eq h key (by omega)]
    exact heap_insert_loop_steps_eq fuel _ _ hf
  · simp only [Bool.and_eq_true, decide_eq_true_eq] at hc
    have := parent_spec i hc.1
    omega

theorem C22_termination_witness :
    (0 : Int) ≤ 0 ∧
    (heapify_steps 6 (heap_of_list [5, 1, 2, 3, 4] 5 heap_type.min_heap) 0).isSome = true ∧
    heapify_steps 6 (heap_of_list [5, 1, 2, 3, 4] 5 heap_type.min_heap) 0 =
      some (heapify (heap_of_list [5, 1, 2, 3, 4] 5 heap_type.min_heap) 0) ∧
    (heap_of_list [1, 3, 2] 4 heap_type.min_heap).count <
      (heap_of_list [1, 3, 2] 4 heap_type.min_heap).max_size ∧
    heap_insert_loop_steps 5
      { heap_of_list [1, 3, 2] 4 heap_type.min_heap with
        last_index := (heap_of_list [1, 3, 2] 4 heap_type.min_heap).last_index + 1,
        data := write (heap_of_list [1, 3, 2] 4 heap_type.min_heap).data
          ((heap_of_list [1, 3, 2] 4 heap_type.min_heap).last_index + 1) 0 }
      ((heap_of_list [1, 3, 2] 4 heap_type.min_heap).last_index + 1) =
      some (heap_insert (heap_of_list [1, 3, 2] 4 heap_type.min_heap) 0) :=
  ⟨by decide, by decide,
    C22_termination.1 (heap_of_list [5, 1, 2, 3, 4] 5 heap_type.min_heap) 0 (by decide) 6
      (by decide),
    by decide,
    C22_termination.2.2.1 (heap_of_list [1, 3, 2] 4 heap_type.min_heap) 0 (by decide) 5
      (by decide)⟩

end DoubleHeap
